import Mathlib

/-!
Verification of the markdown post-processing and cover-extraction pipeline
of the PDF-to-ebook converter (src/main.py).

Strings are modelled as `List Char`.  Python regular expressions are
modelled by deterministic matchers that reproduce the leftmost-match,
greedy/lazy-with-backtracking semantics of the concrete patterns used in
the source (restricted to ASCII character classes, which is what the data
of this program contains).
-/

namespace PdfEbook

/-- Python `\s` (ASCII range): space, tab, newline, carriage return,
form feed, vertical tab. -/
def isWS (c : Char) : Bool :=
  c = ' ' || c = '\t' || c = '\n' || c = '\r' || c = '\x0c' || c = '\x0b'

/-- Python `\d` (ASCII range). -/
def isDigitC (c : Char) : Bool := '0' ≤ c && c ≤ '9'

/-- `[a-z]`. -/
def isLowerC (c : Char) : Bool := 'a' ≤ c && c ≤ 'z'

/-- `[a-zA-Z]`. -/
def isAlphaC (c : Char) : Bool := isLowerC c || ('A' ≤ c && c ≤ 'Z')

/-- Maximal whitespace run at the head: (run, rest). -/
def spanWS (s : List Char) : List Char × List Char :=
  (s.takeWhile isWS, s.dropWhile isWS)

/-- Maximal digit run at the head: (run, rest). -/
def spanDigits (s : List Char) : List Char × List Char :=
  (s.takeWhile isDigitC, s.dropWhile isDigitC)

/-- Split a list at its last newline: `some (a, b)` with
`l = a ++ '\n' :: b` and no newline in `b`. -/
def splitLastNL : List Char → Option (List Char × List Char)
  | [] => none
  | c :: t =>
    match splitLastNL t with
    | some (a, b) => some (c :: a, b)
    | none => if c = '\n' then some ([], t) else none

/--
The trailing `\s*$` of the noise pattern, with the multiline `$` of
Python `re` (matches at end of string or just before a `'\n'`) and the
greedy backtracking of `\s*`: consume the longest whitespace prefix after
which `$` holds.  Returns `(consumed, remainder)`.
-/
def finalWS (t : List Char) : Option (List Char × List Char) :=
  if (t.dropWhile isWS).isEmpty then some (t, [])
  else
    match splitLastNL (t.takeWhile isWS) with
    | some (a, b) => some (a, '\n' :: (b ++ t.dropWhile isWS))
    | none => none

/-- The optional `(?:\s*of\s*\d+)` group, applied after the first digit
run.  Returns `(consumed, remainder)` when the group itself matches. -/
def ofGroup (t : List Char) : Option (List Char × List Char) :=
  match t.dropWhile isWS with
  | 'o' :: 'f' :: u2 =>
    match u2.dropWhile isWS with
    | d :: v =>
      if isDigitC d then
        some (t.takeWhile isWS ++ 'o' :: 'f' :: u2.takeWhile isWS ++
                (d :: v).takeWhile isDigitC,
              (d :: v).dropWhile isDigitC)
      else none
    | [] => none
  | _ => none

/--
`\d+(?:\s*of\s*\d+)?\s*$` at the head of `t` (which must start with a
digit for success).  If the optional group matches but the trailing
`\s*$` then fails, the regex engine backtracks and retries without the
group; both routes are modelled.  Returns `(consumed, remainder)`.
-/
def numTail (t : List Char) : Option (List Char × List Char) :=
  match t with
  | d :: _ =>
    if isDigitC d then
      match ofGroup (t.dropWhile isDigitC) with
      | some (g, t4) =>
        match finalWS t4 with
        | some (f, r) => some (t.takeWhile isDigitC ++ (g ++ f), r)
        | none =>
          match finalWS (t.dropWhile isDigitC) with
          | some (f, r) => some (t.takeWhile isDigitC ++ f, r)
          | none => none
      | none =>
        match finalWS (t.dropWhile isDigitC) with
        | some (f, r) => some (t.takeWhile isDigitC ++ f, r)
        | none => none
    else none
  | [] => none

/-- `(?:Page\s*)?\d+(?:\s*of\s*\d+)?\s*$` at the head of `t` (no leading
whitespace left in `t`).  If `Page` is present the group is committed:
without it a digit would be required where `P` stands, so the regex has
no viable fallback. -/
def matchNoiseCore (t : List Char) : Option (List Char × List Char) :=
  match t with
  | 'P' :: 'a' :: 'g' :: 'e' :: rest =>
    (numTail (rest.dropWhile isWS)).map
      (fun p => ('P' :: 'a' :: 'g' :: 'e' :: (rest.takeWhile isWS ++ p.1), p.2))
  | _ => numTail t

/-- One attempt of the full pattern `^\s*(?:Page\s*)?\d+(?:\s*of\s*\d+)?\s*$`
at a position where `^` holds.  Returns `(matched, remainder)`. -/
def matchNoise (s : List Char) : Option (List Char × List Char) :=
  (matchNoiseCore (s.dropWhile isWS)).map
    (fun p => (s.takeWhile isWS ++ p.1, p.2))

/-- Whether a matched chunk ends in a newline (decides whether the
position after the match is a line start). -/
def lastNL (m : List Char) : Bool :=
  match m.getLast? with
  | some c => c = '\n'
  | none => false

/--
The scanning loop of `re.sub` with replacement `''`: at every position
where `^` holds, attempt the pattern; on a match, emit nothing and resume
after it, otherwise emit the character and advance.  `bol` records
whether the current position is at a line start.  Fuel is the number of
remaining characters (each step consumes at least one). -/
def noiseScanF : Nat → Bool → List Char → List Char
  | 0, _, s => s
  | _ + 1, _, [] => []
  | n + 1, bol, c :: rest =>
    if bol then
      match matchNoise (c :: rest) with
      | some (m, r) => noiseScanF n (lastNL m) r
      | none => c :: noiseScanF n (c == '\n') rest
    else c :: noiseScanF n (c == '\n') rest

/-- The Noise Stripper:
`re.sub(r'(?m)^\s*(?:Page\s*)?\d+(?:\s*of\s*\d+)?\s*$', '', content)`. -/
def noiseStrip (s : List Char) : List Char := noiseScanF s.length true s

/-- `\d+\s*` against the tail of a single line after `of`. -/
def lineOfNum (v : List Char) : Bool :=
  match v with
  | e :: _ => isDigitC e && ((v.dropWhile isDigitC).dropWhile isWS).isEmpty
  | [] => false

/-- `of\s*\d+\s*` against the whitespace-stripped tail of a single line
after the first number. -/
def lineOfTail (w : List Char) : Bool :=
  match w with
  | 'o' :: 'f' :: u2 => lineOfNum (u2.dropWhile isWS)
  | _ => false

/-- `\d+(\s*of\s*\d+)?\s*` against the whole rest of a single line. -/
def lineNumTail (t2 : List Char) : Bool :=
  match t2 with
  | d :: _ =>
    isDigitC d &&
      (((t2.dropWhile isDigitC).dropWhile isWS).isEmpty ||
       lineOfTail ((t2.dropWhile isDigitC).dropWhile isWS))
  | [] => false

/-- Full-line match of `\s*(?:Page\s*)?\d+(?:\s*of\s*\d+)?\s*` against a
single line, i.e. the line consists solely of optional whitespace, an
optional literal `Page` with whitespace, a number, optionally `of` and a
second number, and trailing whitespace. -/
def lineMatches (s : List Char) : Bool :=
  match s.dropWhile isWS with
  | 'P' :: 'a' :: 'g' :: 'e' :: r => lineNumTail (r.dropWhile isWS)
  | t1 => lineNumTail t1

/-- Split a text into its lines (a text with no newline is one line; a
trailing newline yields a final empty line), inverse of joining with
`'\n'`. -/
def splitLines : List Char → List (List Char)
  | [] => [[]]
  | c :: t =>
    if c = '\n' then [] :: splitLines t
    else
      match splitLines t with
      | l :: ls => (c :: l) :: ls
      | [] => [[c]]

/-- Join lines with `'\n'`. -/
def joinNL : List (List Char) → List Char
  | [] => []
  | [l] => l
  | l :: ls => l ++ '\n' :: joinNL ls

/-- Modelled from the spec: the Noise Stripper as the specification words
it — "remove every line that consists solely of (optionally) the literal
word Page, optional whitespace, a number, optionally followed by of and a
second number, with only whitespace before/after", each line matched
independently. -/
def specNoiseStrip (s : List Char) : List Char :=
  joinNL ((splitLines s).filter (fun l => !lineMatches l))

/-! ### Generic list helpers -/

theorem takeWhile_append_all (p : Char → Bool) (a b : List Char)
    (h : ∀ c ∈ a, p c = true) :
    (a ++ b).takeWhile p = a ++ b.takeWhile p := by
  induction a with
  | nil => simp
  | cons c t ih =>
    simp only [List.cons_append, List.takeWhile_cons]
    rw [h c (by simp), ih (fun x hx => h x (by simp [hx]))]
    simp

theorem dropWhile_append_all (p : Char → Bool) (a b : List Char)
    (h : ∀ c ∈ a, p c = true) :
    (a ++ b).dropWhile p = b.dropWhile p := by
  induction a with
  | nil => simp
  | cons c t ih =>
    simp only [List.cons_append, List.dropWhile_cons]
    rw [h c (by simp)]
    simpa using ih (fun x hx => h x (by simp [hx]))

/-- The head of `t` (if any) falsifies `p`. -/
def HeadNot (p : Char → Bool) : List Char → Prop
  | [] => True
  | c :: _ => p c = false

theorem takeWhile_headNot (p : Char → Bool) (t : List Char)
    (h : HeadNot p t) : t.takeWhile p = [] := by
  cases t with
  | nil => simp
  | cons c r =>
    have hc : p c = false := h
    simp [List.takeWhile_cons, hc]

theorem dropWhile_headNot (p : Char → Bool) (t : List Char)
    (h : HeadNot p t) : t.dropWhile p = t := by
  cases t with
  | nil => simp
  | cons c r =>
    have hc : p c = false := h
    simp [List.dropWhile_cons, hc]

theorem takeWhile_split (p : Char → Bool) (a t : List Char)
    (h : ∀ c ∈ a, p c = true) (ht : HeadNot p t) :
    (a ++ t).takeWhile p = a := by
  rw [takeWhile_append_all p a t h, takeWhile_headNot p t ht, List.append_nil]

theorem dropWhile_split (p : Char → Bool) (a t : List Char)
    (h : ∀ c ∈ a, p c = true) (ht : HeadNot p t) :
    (a ++ t).dropWhile p = t := by
  rw [dropWhile_append_all p a t h, dropWhile_headNot p t ht]

/-- Every element of the list satisfies `isWS`. -/
def AllWS (l : List Char) : Prop := ∀ c ∈ l, isWS c = true

/-- Every element of the list satisfies `isDigitC`. -/
def AllDig (l : List Char) : Prop := ∀ c ∈ l, isDigitC c = true

theorem allWS_takeWhile (s : List Char) : AllWS (s.takeWhile isWS) :=
  fun _ hc => List.mem_takeWhile_imp hc

theorem allDig_takeWhile (s : List Char) : AllDig (s.takeWhile isDigitC) :=
  fun _ hc => List.mem_takeWhile_imp hc

theorem headNot_dropWhile (p : Char → Bool) (s : List Char) :
    HeadNot p (s.dropWhile p) := by
  induction s with
  | nil => simp [HeadNot]
  | cons c t ih =>
    rw [List.dropWhile_cons]
    by_cases h : p c = true
    · simpa [h] using ih
    · simp only [Bool.not_eq_true] at h
      simp [h, HeadNot]

theorem headNot_cons (p : Char → Bool) (c : Char) (t : List Char) :
    HeadNot p (c :: t) ↔ p c = false := Iff.rfl

theorem ws_not_digit (c : Char) (h : isWS c = true) : isDigitC c = false := by
  simp only [isWS, Bool.or_eq_true, decide_eq_true_eq] at h
  rcases h with ((((h | h) | h) | h) | h) | h <;> subst h <;> decide

theorem digit_not_ws (c : Char) (h : isDigitC c = true) : isWS c = false := by
  by_cases hw : isWS c = true
  · rw [ws_not_digit c hw] at h; exact absurd h (by simp)
  · simpa using hw

theorem nl_is_ws : isWS '\n' = true := by decide

/-! ### splitLastNL and finalWS -/

theorem splitLastNL_none (l : List Char) (h : splitLastNL l = none) :
    '\n' ∉ l := by
  induction l with
  | nil => simp
  | cons c r ih =>
    rw [splitLastNL] at h
    cases hs : splitLastNL r with
    | some p => rw [hs] at h; cases h
    | none =>
      rw [hs] at h
      by_cases hc : c = '\n'
      · simp [hc] at h
      · simp only [List.mem_cons]
        rintro (rfl | hmem)
        · exact hc rfl
        · exact ih hs hmem

theorem splitLastNL_some (l a b : List Char) (h : splitLastNL l = some (a, b)) :
    l = a ++ '\n' :: b ∧ '\n' ∉ b := by
  induction l generalizing a b with
  | nil => simp [splitLastNL] at h
  | cons c t ih =>
    rw [splitLastNL] at h
    cases hs : splitLastNL t with
    | some p =>
      obtain ⟨a2, b2⟩ := p
      rw [hs] at h
      simp only [Option.some.injEq, Prod.mk.injEq] at h
      obtain ⟨h1, h2⟩ := h
      obtain ⟨ht, hb⟩ := ih a2 b2 hs
      subst h2
      constructor
      · rw [← h1, List.cons_append, ht]
      · exact hb
    | none =>
      rw [hs] at h
      by_cases hc : c = '\n'
      · subst hc
        simp only [reduceIte, Option.some.injEq, Prod.mk.injEq] at h
        rw [← h.1, ← h.2]
        exact ⟨by simp, splitLastNL_none t hs⟩
      · simp [hc] at h

theorem splitLastNL_app (a b : List Char) (hb : '\n' ∉ b) :
    splitLastNL (a ++ '\n' :: b) = some (a, b) := by
  induction a with
  | nil =>
    rw [List.nil_append, splitLastNL]
    cases hs : splitLastNL b with
    | some p =>
      obtain ⟨x, y⟩ := p
      obtain ⟨hxy, _⟩ := splitLastNL_some b x y hs
      exact absurd (by rw [hxy]; simp) hb
    | none => simp
  | cons c t ih =>
    rw [List.cons_append, splitLastNL, ih]

/-- Remainder shape after a match: empty, or starting at a newline. -/
def NLHead (r : List Char) : Prop := r = [] ∨ ∃ r2, r = '\n' :: r2

theorem finalWS_some (t f r : List Char) (h : finalWS t = some (f, r)) :
    t = f ++ r ∧ AllWS f ∧ NLHead r := by
  simp only [finalWS] at h
  split at h
  next he =>
    simp only [Option.some.injEq, Prod.mk.injEq] at h
    obtain ⟨h1, h2⟩ := h
    subst h1
    refine ⟨by simp [← h2], ?_, Or.inl h2.symm⟩
    intro c hc
    have ht : t.takeWhile isWS = t := by
      conv_rhs => rw [← @List.takeWhile_append_dropWhile _ isWS t]
      simp [List.isEmpty_iff.mp he]
    exact List.mem_takeWhile_imp (ht ▸ hc)
  next he =>
    split at h
    next a b hs =>
      simp only [Option.some.injEq, Prod.mk.injEq] at h
      obtain ⟨h1, h2⟩ := h
      subst h1
      obtain ⟨hw, _⟩ := splitLastNL_some _ a b hs
      constructor
      · conv_lhs => rw [← @List.takeWhile_append_dropWhile _ isWS t]
        rw [hw, ← h2]
        simp
      · refine ⟨?_, Or.inr ⟨b ++ t.dropWhile isWS, h2.symm⟩⟩
        intro c hc
        exact List.mem_takeWhile_imp (show c ∈ t.takeWhile isWS by rw [hw]; simp [hc])
    next hs => cases h

theorem finalWS_all_ws (t : List Char) (h : AllWS t) : finalWS t = some (t, []) := by
  unfold finalWS
  have hd : t.dropWhile isWS = [] := by
    rw [List.dropWhile_eq_nil_iff]
    intro c hc
    exact h c hc
  simp [hd]

theorem finalWS_isSome (t : List Char)
    (h : '\n' ∈ t.takeWhile isWS ∨ t.dropWhile isWS = []) :
    (finalWS t).isSome := by
  unfold finalWS
  rcases h with h | h
  · by_cases he : (t.dropWhile isWS).isEmpty
    · simp [he]
    · simp only [he, if_false]
      cases hs : splitLastNL (t.takeWhile isWS) with
      | some p => simp
      | none => exact absurd h (splitLastNL_none _ hs)
  · simp [h]

theorem finalWS_none (t : List Char) (h : finalWS t = none) :
    '\n' ∉ t.takeWhile isWS ∧ t.dropWhile isWS ≠ [] := by
  constructor
  · intro hmem
    have := finalWS_isSome t (Or.inl hmem)
    rw [h] at this
    cases this
  · intro hnil
    have := finalWS_isSome t (Or.inr hnil)
    rw [h] at this
    cases this

/-- The optional `Page` prefix of the pattern. -/
def PageOpt (pg : List Char) : Prop :=
  pg = [] ∨ ∃ w2, pg = 'P' :: 'a' :: 'g' :: 'e' :: w2 ∧ AllWS w2

/-- The optional `\s*of\s*\d+` group of the pattern. -/
def OfOpt (g : List Char) : Prop :=
  g = [] ∨ ∃ w3 w4 d2, g = w3 ++ 'o' :: 'f' :: (w4 ++ d2) ∧
    AllWS w3 ∧ AllWS w4 ∧ AllDig d2 ∧ d2 ≠ []

/-- A single line consisting solely of the noise pattern
`\s*(Page\s*)?\d+(\s*of\s*\d+)?\s*`. -/
def LineShape (L : List Char) : Prop :=
  ∃ w1 pg d1 g w5, L = w1 ++ (pg ++ (d1 ++ (g ++ w5))) ∧ AllWS w1 ∧ PageOpt pg ∧
    AllDig d1 ∧ d1 ≠ [] ∧ OfOpt g ∧ AllWS w5

theorem ofGroup_some (t g t4 : List Char) (h : ofGroup t = some (g, t4)) :
    t = g ++ t4 ∧ HeadNot isDigitC t4 ∧
      ∃ w3 w4 d2, g = w3 ++ 'o' :: 'f' :: (w4 ++ d2) ∧
        AllWS w3 ∧ AllWS w4 ∧ AllDig d2 ∧ d2 ≠ [] := by
  unfold ofGroup at h
  split at h
  next u2 hu =>
    split at h
    next d v hv =>
      split at h
      next hd =>
        simp only [Option.some.injEq, Prod.mk.injEq] at h
        obtain ⟨h1, h2⟩ := h
        have htw : t.takeWhile isWS ++ ('o' :: 'f' :: u2) = t := by
          conv_rhs => rw [← @List.takeWhile_append_dropWhile _ isWS t]
          rw [hu]
        have huw : u2.takeWhile isWS ++ (d :: v) = u2 := by
          conv_rhs => rw [← @List.takeWhile_append_dropWhile _ isWS u2]
          rw [hv]
        have hdv : (d :: v).takeWhile isDigitC ++ (d :: v).dropWhile isDigitC
            = d :: v := @List.takeWhile_append_dropWhile _ isDigitC (d :: v)
        refine ⟨?_, ?_, t.takeWhile isWS, u2.takeWhile isWS,
          (d :: v).takeWhile isDigitC, ?_, allWS_takeWhile t,
          allWS_takeWhile u2, allDig_takeWhile (d :: v), ?_⟩
        · have e1 : t = t.takeWhile isWS ++ ('o' :: 'f' :: (u2.takeWhile isWS ++
              ((d :: v).takeWhile isDigitC ++ (d :: v).dropWhile isDigitC))) := by
            rw [hdv, huw, htw]
          rw [← h1, ← h2]
          conv_lhs => rw [e1]
          simp [List.append_assoc]
        · rw [← h2]; exact headNot_dropWhile _ _
        · rw [← h1]; simp [List.append_assoc]
        · simp [List.takeWhile_cons, hd]
      next => cases h
    next => cases h
  next => cases h

/-- Build a successful `ofGroup` run from its pieces. -/
theorem ofGroup_build (w3 w4 d2 rest : List Char) (h3 : AllWS w3) (h4 : AllWS w4)
    (hd : AllDig d2) (hne : d2 ≠ []) (hrest : HeadNot isDigitC rest) :
    ofGroup (w3 ++ 'o' :: 'f' :: (w4 ++ d2 ++ rest)) =
      some (w3 ++ 'o' :: 'f' :: (w4 ++ d2), rest) := by
  obtain ⟨d, dtl, rfl⟩ : ∃ d dtl, d2 = d :: dtl := by
    cases d2 with
    | nil => exact absurd rfl hne
    | cons d dtl => exact ⟨d, dtl, rfl⟩
  have hdig : isDigitC d = true := hd d (by simp)
  have hwd : HeadNot isWS (d :: dtl ++ rest) := by
    simp only [HeadNot, List.cons_append]
    exact digit_not_ws d hdig
  unfold ofGroup
  rw [takeWhile_split isWS w3 _ h3 ((headNot_cons ..).mpr (by decide)),
      dropWhile_split isWS w3 _ h3 ((headNot_cons ..).mpr (by decide))]
  simp only
  rw [show w4 ++ (d :: dtl) ++ rest = w4 ++ (d :: dtl ++ rest) from by simp,
      takeWhile_split isWS w4 _ h4 hwd, dropWhile_split isWS w4 _ h4 hwd]
  simp only [List.cons_append, hdig, if_true]
  have hdall : ∀ c ∈ d :: dtl, isDigitC c = true := hd
  rw [show (d :: (dtl ++ rest)) = (d :: dtl) ++ rest from by simp]
  rw [takeWhile_split isDigitC _ _ hdall hrest, dropWhile_split isDigitC _ _ hdall hrest]
  simp

theorem ofGroup_ws_none (t : List Char) (h : AllWS t) : ofGroup t = none := by
  unfold ofGroup
  have hd : t.dropWhile isWS = [] := by
    rw [List.dropWhile_eq_nil_iff]; exact h
  rw [hd]

theorem numTail_some (t m r : List Char) (h : numTail t = some (m, r)) :
    t = m ++ r ∧ m ≠ [] ∧ NLHead r ∧
      ∃ d1 g f, m = d1 ++ (g ++ f) ∧ AllDig d1 ∧ d1 ≠ [] ∧ OfOpt g ∧ AllWS f := by
  unfold numTail at h
  split at h
  next d t0 =>
    by_cases hd : isDigitC d = true
    · rw [if_pos hd] at h
      have hsplit : (d :: t0).takeWhile isDigitC ++ (d :: t0).dropWhile isDigitC
          = d :: t0 := @List.takeWhile_append_dropWhile _ isDigitC (d :: t0)
      have hd1ne : (d :: t0).takeWhile isDigitC ≠ [] := by
        simp [List.takeWhile_cons, hd]
      split at h
      next g t4 hog =>
        obtain ⟨hog1, _, hogsh⟩ := ofGroup_some _ g t4 hog
        split at h
        next f r0 hfw =>
          obtain ⟨hfw1, hfw2, hfw3⟩ := finalWS_some t4 f r0 hfw
          simp only [Option.some.injEq, Prod.mk.injEq] at h
          obtain ⟨h1, h2⟩ := h
          subst h2
          refine ⟨?_, ?_, hfw3, (d :: t0).takeWhile isDigitC, g, f,
            by rw [← h1], allDig_takeWhile _, hd1ne, Or.inr hogsh, hfw2⟩
          · calc d :: t0 = (d :: t0).takeWhile isDigitC ++ (d :: t0).dropWhile isDigitC :=
                hsplit.symm
              _ = (d :: t0).takeWhile isDigitC ++ (g ++ (f ++ r0)) := by rw [hog1, hfw1]
              _ = m ++ r0 := by rw [← h1]; simp [List.append_assoc]
          · rw [← h1]; simp [hd1ne]
        next hfw =>
          split at h
          next f r0 hfw2 =>
            obtain ⟨hf1, hf2, hf3⟩ := finalWS_some _ f r0 hfw2
            simp only [Option.some.injEq, Prod.mk.injEq] at h
            obtain ⟨h1, h2⟩ := h
            subst h2
            refine ⟨?_, ?_, hf3, (d :: t0).takeWhile isDigitC, [], f,
              by rw [← h1]; simp, allDig_takeWhile _, hd1ne, Or.inl rfl, hf2⟩
            · calc d :: t0 = (d :: t0).takeWhile isDigitC ++ (d :: t0).dropWhile isDigitC :=
                  hsplit.symm
                _ = (d :: t0).takeWhile isDigitC ++ (f ++ r0) := by rw [hf1]
                _ = m ++ r0 := by rw [← h1]; simp [List.append_assoc]
            · rw [← h1]; simp [hd1ne]
          next => cases h
      next hog =>
        split at h
        next f r0 hfw2 =>
          obtain ⟨hf1, hf2, hf3⟩ := finalWS_some _ f r0 hfw2
          simp only [Option.some.injEq, Prod.mk.injEq] at h
          obtain ⟨h1, h2⟩ := h
          subst h2
          refine ⟨?_, ?_, hf3, (d :: t0).takeWhile isDigitC, [], f,
            by rw [← h1]; simp, allDig_takeWhile _, hd1ne, Or.inl rfl, hf2⟩
          · calc d :: t0 = (d :: t0).takeWhile isDigitC ++ (d :: t0).dropWhile isDigitC :=
                hsplit.symm
              _ = (d :: t0).takeWhile isDigitC ++ (f ++ r0) := by rw [hf1]
              _ = m ++ r0 := by rw [← h1]; simp [List.append_assoc]
          · rw [← h1]; simp [hd1ne]
        next => cases h
    · rw [if_neg hd] at h; cases h
  next => cases h

/-- Successful `numTail` run built from pattern pieces followed by an
empty-or-newline-headed tail. -/
theorem numTail_build_isSome (d1 g f tail : List Char) (hd : AllDig d1)
    (hne : d1 ≠ []) (hg : OfOpt g) (hf : AllWS f) (htail : NLHead tail) :
    (numTail (d1 ++ (g ++ (f ++ tail)))).isSome := by
  obtain ⟨d, dtl, rfl⟩ : ∃ d dtl, d1 = d :: dtl := by
    cases d1 with
    | nil => exact absurd rfl hne
    | cons d dtl => exact ⟨d, dtl, rfl⟩
  have hdig : isDigitC d = true := hd d (by simp)
  have hndft : HeadNot isDigitC (f ++ tail) := by
    cases f with
    | nil =>
      rcases htail with rfl | ⟨r2, rfl⟩
      · simp [HeadNot]
      · exact (headNot_cons ..).mpr (by decide)
    | cons x xs =>
      exact (headNot_cons ..).mpr (ws_not_digit x (hf x (by simp)))
  have hrest : HeadNot isDigitC (g ++ (f ++ tail)) := by
    rcases hg with rfl | ⟨w3, w4, d2, rfl, h3, h4, hd2, hd2ne⟩
    · simpa using hndft
    · cases w3 with
      | nil => exact (headNot_cons ..).mpr (by decide)
      | cons x xs =>
        exact (headNot_cons ..).mpr (ws_not_digit x (h3 x (by simp)))
  have hfin : (finalWS (f ++ tail)).isSome := by
    apply finalWS_isSome
    rcases htail with rfl | ⟨r2, rfl⟩
    · right
      rw [List.append_nil, List.dropWhile_eq_nil_iff]
      exact hf
    · left
      rw [takeWhile_append_all isWS f _ hf]
      simp [List.takeWhile_cons, nl_is_ws]
  obtain ⟨ff, rr, hfr⟩ : ∃ ff rr, finalWS (f ++ tail) = some (ff, rr) := by
    cases hx : finalWS (f ++ tail) with
    | some q =>
      obtain ⟨a, b⟩ := q
      exact ⟨a, b, rfl⟩
    | none => rw [hx] at hfin; cases hfin
  have hcons : (d :: dtl) ++ (g ++ (f ++ tail)) = d :: (dtl ++ (g ++ (f ++ tail))) := by
    simp
  have htake : (d :: (dtl ++ (g ++ (f ++ tail)))).takeWhile isDigitC = d :: dtl := by
    rw [← hcons]; exact takeWhile_split isDigitC _ _ hd hrest
  have hdrop : (d :: (dtl ++ (g ++ (f ++ tail)))).dropWhile isDigitC
      = g ++ (f ++ tail) := by
    rw [← hcons]; exact dropWhile_split isDigitC _ _ hd hrest
  rw [hcons]
  unfold numTail
  simp only [hdig, if_true, htake, hdrop]
  rcases hg with rfl | ⟨w3, w4, d2, rfl, h3, h4, hd2, hd2ne⟩
  · simp only [List.nil_append]
    cases hog : ofGroup (f ++ tail) with
    | some p =>
      obtain ⟨g2, t5⟩ := p
      cases hf5 : finalWS t5 with
      | some q =>
        obtain ⟨a, b⟩ := q
        simp [hf5]
      | none => simp [hf5, hfr]
    | none => simp [hfr]
  · have hog := ofGroup_build w3 w4 d2 (f ++ tail) h3 h4 hd2 hd2ne hndft
    simp only [List.append_assoc, List.cons_append] at hog ⊢
    rw [hog]
    simp [hfr]

/-- Exact value of `numTail` on a complete pattern instance with nothing
after it. -/
theorem numTail_exact (d1 g f : List Char) (hd : AllDig d1) (hne : d1 ≠ [])
    (hg : OfOpt g) (hf : AllWS f) :
    numTail (d1 ++ (g ++ f)) = some (d1 ++ (g ++ f), []) := by
  obtain ⟨d, dtl, rfl⟩ : ∃ d dtl, d1 = d :: dtl := by
    cases d1 with
    | nil => exact absurd rfl hne
    | cons d dtl => exact ⟨d, dtl, rfl⟩
  have hdig : isDigitC d = true := hd d (by simp)
  have hndf : HeadNot isDigitC f := by
    cases f with
    | nil => simp [HeadNot]
    | cons x xs => exact (headNot_cons ..).mpr (ws_not_digit x (hf x (by simp)))
  have hrest : HeadNot isDigitC (g ++ f) := by
    rcases hg with rfl | ⟨w3, w4, d2, rfl, h3, h4, hd2, hd2ne⟩
    · simpa using hndf
    · cases w3 with
      | nil => exact (headNot_cons ..).mpr (by decide)
      | cons x xs =>
        exact (headNot_cons ..).mpr (ws_not_digit x (h3 x (by simp)))
  have hcons : (d :: dtl) ++ (g ++ f) = d :: (dtl ++ (g ++ f)) := by simp
  have htake : (d :: (dtl ++ (g ++ f))).takeWhile isDigitC = d :: dtl := by
    rw [← hcons]; exact takeWhile_split isDigitC _ _ hd hrest
  have hdrop : (d :: (dtl ++ (g ++ f))).dropWhile isDigitC = g ++ f := by
    rw [← hcons]; exact dropWhile_split isDigitC _ _ hd hrest
  have hfin : finalWS f = some (f, []) := finalWS_all_ws f hf
  rw [hcons]
  unfold numTail
  simp only [hdig, if_true, htake, hdrop]
  rcases hg with rfl | ⟨w3, w4, d2, rfl, h3, h4, hd2, hd2ne⟩
  · rw [List.nil_append, ofGroup_ws_none f hf]
    simp [hfin]
  · have hog := ofGroup_build w3 w4 d2 f h3 h4 hd2 hd2ne hndf
    simp only [List.append_assoc, List.cons_append] at hog ⊢
    rw [hog]
    simp [hfin]

theorem matchNoiseCore_digit (d : Char) (t0 : List Char) (hd : isDigitC d = true) :
    matchNoiseCore (d :: t0) = numTail (d :: t0) := by
  unfold matchNoiseCore
  split
  next rest heq =>
    have : d = 'P' := by
      have := congrArg (fun l => l.head?) heq
      simpa using this
    subst this
    exact absurd hd (by decide)
  next => rfl

theorem matchNoiseCore_page (rest : List Char) :
    matchNoiseCore ('P' :: 'a' :: 'g' :: 'e' :: rest) =
      (numTail (rest.dropWhile isWS)).map
        (fun p => ('P' :: 'a' :: 'g' :: 'e' :: (rest.takeWhile isWS ++ p.1), p.2)) := rfl

/-- Inversion of a successful core match (no leading whitespace handled
yet): the consumed text decomposes into the pattern pieces. -/
theorem matchNoiseCore_some (t m r : List Char) (h : matchNoiseCore t = some (m, r)) :
    t = m ++ r ∧ m ≠ [] ∧ NLHead r ∧
      ∃ pg d1 g f, m = pg ++ (d1 ++ (g ++ f)) ∧ PageOpt pg ∧
        AllDig d1 ∧ d1 ≠ [] ∧ OfOpt g ∧ AllWS f := by
  unfold matchNoiseCore at h
  split at h
  next _ rest =>
    cases hnt : numTail (rest.dropWhile isWS) with
    | none => rw [hnt] at h; cases h
    | some q =>
      obtain ⟨m2, r2⟩ := q
      rw [hnt] at h
      simp only [Option.map_some', Option.some.injEq, Prod.mk.injEq] at h
      obtain ⟨hm1, hr1⟩ := h
      obtain ⟨hnt1, hnt2, hnt3, d1, g, f, hm2, hdd, hdne, hog, hfw⟩ :=
        numTail_some _ m2 r2 hnt
      have hrest : rest.takeWhile isWS ++ rest.dropWhile isWS = rest :=
        @List.takeWhile_append_dropWhile _ isWS rest
      refine ⟨?_, ?_, ?_, 'P' :: 'a' :: 'g' :: 'e' :: rest.takeWhile isWS,
        d1, g, f, ?_, Or.inr ⟨rest.takeWhile isWS, rfl, allWS_takeWhile rest⟩,
        hdd, hdne, hog, hfw⟩
      · rw [← hm1, ← hr1]
        conv_lhs => rw [← hrest, hnt1]
        simp [List.append_assoc]
      · rw [← hm1]; simp
      · rw [← hr1]; exact hnt3
      · rw [← hm1, hm2]; simp [List.append_assoc]
  next =>
    obtain ⟨hnt1, hnt2, hnt3, d1, g, f, hm2, hdd, hdne, hog, hfw⟩ :=
      numTail_some _ m r h
    exact ⟨hnt1, hnt2, hnt3, [], d1, g, f, by simpa using hm2, Or.inl rfl,
      hdd, hdne, hog, hfw⟩

/-- Full inversion of a successful noise-pattern match: the consumed text
decomposes into the pattern pieces, and the remainder is empty or starts
at a newline. -/
theorem matchNoise_some (s m r : List Char) (h : matchNoise s = some (m, r)) :
    s = m ++ r ∧ m ≠ [] ∧ NLHead r ∧
      ∃ w1 pg d1 g f, m = w1 ++ (pg ++ (d1 ++ (g ++ f))) ∧ AllWS w1 ∧ PageOpt pg ∧
        AllDig d1 ∧ d1 ≠ [] ∧ OfOpt g ∧ AllWS f := by
  unfold matchNoise at h
  cases hc : matchNoiseCore (s.dropWhile isWS) with
  | none => rw [hc] at h; cases h
  | some p =>
    obtain ⟨m1, r1⟩ := p
    rw [hc] at h
    simp only [Option.map_some', Option.some.injEq, Prod.mk.injEq] at h
    obtain ⟨hm, hr⟩ := h
    obtain ⟨hc1, hc2, hc3, pg, d1, g, f, hm1, hpg, hdd, hdne, hog, hfw⟩ :=
      matchNoiseCore_some _ m1 r1 hc
    have hsws : s.takeWhile isWS ++ s.dropWhile isWS = s :=
      @List.takeWhile_append_dropWhile _ isWS s
    refine ⟨?_, ?_, ?_, s.takeWhile isWS, pg, d1, g, f, ?_,
      allWS_takeWhile s, hpg, hdd, hdne, hog, hfw⟩
    · rw [← hm, ← hr]
      conv_lhs => rw [← hsws, hc1]
      simp [List.append_assoc]
    · rw [← hm]; simp [hc2]
    · rw [← hr]; exact hc3
    · rw [← hm, hm1]


/-- A successful match attempt exists at the start of any text formed by a
full pattern instance followed by an empty-or-newline-headed tail. -/
theorem matchNoise_build_isSome (w1 pg d1 g f tail : List Char) (h1 : AllWS w1)
    (hpg : PageOpt pg) (hd : AllDig d1) (hne : d1 ≠ []) (hg : OfOpt g)
    (hf : AllWS f) (htail : NLHead tail) :
    (matchNoise (w1 ++ (pg ++ (d1 ++ (g ++ (f ++ tail)))))).isSome := by
  obtain ⟨d, dtl, rfl⟩ : ∃ d dtl, d1 = d :: dtl := by
    cases d1 with
    | nil => exact absurd rfl hne
    | cons d dtl => exact ⟨d, dtl, rfl⟩
  have hdig : isDigitC d = true := hd d (by simp)
  have hnum := numTail_build_isSome (d :: dtl) g f tail hd hne hg hf htail
  have hX : HeadNot isWS (pg ++ ((d :: dtl) ++ (g ++ (f ++ tail)))) := by
    rcases hpg with rfl | ⟨w2, rfl, hw2⟩
    · simp only [List.nil_append, List.cons_append]
      exact (headNot_cons ..).mpr (digit_not_ws d hdig)
    · exact (headNot_cons ..).mpr (by decide)
  have htk := takeWhile_split isWS w1 _ h1 hX
  have hdr := dropWhile_split isWS w1 _ h1 hX
  unfold matchNoise
  rw [hdr]
  rcases hpg with rfl | ⟨w2, rfl, hw2⟩
  · rw [List.nil_append, show (d :: dtl) ++ (g ++ (f ++ tail))
        = d :: (dtl ++ (g ++ (f ++ tail))) from by simp]
    rw [matchNoiseCore_digit d _ hdig]
    rw [show d :: (dtl ++ (g ++ (f ++ tail))) = (d :: dtl) ++ (g ++ (f ++ tail))
        from by simp]
    cases hq : numTail ((d :: dtl) ++ (g ++ (f ++ tail))) with
    | none => rw [hq] at hnum; cases hnum
    | some q => simp
  · have hrw : ('P' :: 'a' :: 'g' :: 'e' :: w2) ++ ((d :: dtl) ++ (g ++ (f ++ tail)))
        = 'P' :: 'a' :: 'g' :: 'e' :: (w2 ++ ((d :: dtl) ++ (g ++ (f ++ tail)))) := by
      simp
    rw [hrw, matchNoiseCore_page]
    have hY : HeadNot isWS ((d :: dtl) ++ (g ++ (f ++ tail))) := by
      simp only [List.cons_append]
      exact (headNot_cons ..).mpr (digit_not_ws d hdig)
    rw [dropWhile_split isWS w2 _ hw2 hY]
    cases hq : numTail ((d :: dtl) ++ (g ++ (f ++ tail))) with
    | none => rw [hq] at hnum; cases hnum
    | some q => simp

/-- Exact value of a match attempt on a text that is exactly one pattern
instance: everything is consumed. -/
theorem matchNoise_exact (w1 pg d1 g f : List Char) (h1 : AllWS w1)
    (hpg : PageOpt pg) (hd : AllDig d1) (hne : d1 ≠ []) (hg : OfOpt g)
    (hf : AllWS f) :
    matchNoise (w1 ++ (pg ++ (d1 ++ (g ++ f)))) =
      some (w1 ++ (pg ++ (d1 ++ (g ++ f))), []) := by
  obtain ⟨d, dtl, rfl⟩ : ∃ d dtl, d1 = d :: dtl := by
    cases d1 with
    | nil => exact absurd rfl hne
    | cons d dtl => exact ⟨d, dtl, rfl⟩
  have hdig : isDigitC d = true := hd d (by simp)
  have hnum := numTail_exact (d :: dtl) g f hd hne hg hf
  have hX : HeadNot isWS (pg ++ ((d :: dtl) ++ (g ++ f))) := by
    rcases hpg with rfl | ⟨w2, rfl, hw2⟩
    · simp only [List.nil_append, List.cons_append]
      exact (headNot_cons ..).mpr (digit_not_ws d hdig)
    · exact (headNot_cons ..).mpr (by decide)
  have htk := takeWhile_split isWS w1 _ h1 hX
  have hdr := dropWhile_split isWS w1 _ h1 hX
  unfold matchNoise
  rw [hdr, htk]
  rcases hpg with rfl | ⟨w2, rfl, hw2⟩
  · rw [List.nil_append, show (d :: dtl) ++ (g ++ f)
        = d :: (dtl ++ (g ++ f)) from by simp]
    rw [matchNoiseCore_digit d _ hdig]
    rw [show d :: (dtl ++ (g ++ f)) = (d :: dtl) ++ (g ++ f) from by simp, hnum]
    simp
  · have hrw : ('P' :: 'a' :: 'g' :: 'e' :: w2) ++ ((d :: dtl) ++ (g ++ f))
        = 'P' :: 'a' :: 'g' :: 'e' :: (w2 ++ ((d :: dtl) ++ (g ++ f))) := by
      simp
    rw [hrw, matchNoiseCore_page]
    have hY : HeadNot isWS ((d :: dtl) ++ (g ++ f)) := by
      simp only [List.cons_append]
      exact (headNot_cons ..).mpr (digit_not_ws d hdig)
    rw [dropWhile_split isWS w2 _ hw2 hY, takeWhile_split isWS w2 _ hw2 hY, hnum]
    simp

/-! ### Equivalence of the single-line pattern and its grammar -/

theorem lineNumTail_shape (t2 : List Char) (h : lineNumTail t2 = true) :
    ∃ d1 g w5, t2 = d1 ++ (g ++ w5) ∧ AllDig d1 ∧ d1 ≠ [] ∧ OfOpt g ∧ AllWS w5 := by
  unfold lineNumTail at h
  split at h
  next d t0 =>
    rw [Bool.and_eq_true] at h
    obtain ⟨hd, hAB⟩ := h
    rw [Bool.or_eq_true] at hAB
    have hsplit : (d :: t0).takeWhile isDigitC ++ (d :: t0).dropWhile isDigitC
        = d :: t0 := @List.takeWhile_append_dropWhile _ isDigitC (d :: t0)
    have hd1ne : (d :: t0).takeWhile isDigitC ≠ [] := by
      simp [List.takeWhile_cons, hd]
    rcases hAB with hA | hB
    · refine ⟨(d :: t0).takeWhile isDigitC, [], (d :: t0).dropWhile isDigitC,
        by simp [hsplit], allDig_takeWhile _, hd1ne, Or.inl rfl, ?_⟩
      rw [List.isEmpty_iff] at hA
      exact fun c hc => List.dropWhile_eq_nil_iff.mp hA c hc
    · unfold lineOfTail at hB
      split at hB
      next u2 hequ =>
        unfold lineOfNum at hB
        split at hB
        next e rest2 heqv =>
          rw [Bool.and_eq_true] at hB
          obtain ⟨he, hemp⟩ := hB
          rw [heqv] at hemp
          rw [List.isEmpty_iff] at hemp
          have ht3 : ((d :: t0).dropWhile isDigitC).takeWhile isWS ++ ('o' :: 'f' :: u2)
              = (d :: t0).dropWhile isDigitC := by
            conv_rhs => rw [← @List.takeWhile_append_dropWhile _ isWS
              ((d :: t0).dropWhile isDigitC)]
            rw [hequ]
          have hu2 : u2.takeWhile isWS ++ (e :: rest2) = u2 := by
            conv_rhs => rw [← @List.takeWhile_append_dropWhile _ isWS u2]
            rw [heqv]
          have he2 : (e :: rest2).takeWhile isDigitC ++ (e :: rest2).dropWhile isDigitC
              = e :: rest2 := @List.takeWhile_append_dropWhile _ isDigitC (e :: rest2)
          have hd2ne : (e :: rest2).takeWhile isDigitC ≠ [] := by
            simp [List.takeWhile_cons, he]
          have hw5 : AllWS ((e :: rest2).dropWhile isDigitC) :=
            fun c hc => List.dropWhile_eq_nil_iff.mp hemp c hc
          refine ⟨(d :: t0).takeWhile isDigitC,
            ((d :: t0).dropWhile isDigitC).takeWhile isWS ++
              'o' :: 'f' :: (u2.takeWhile isWS ++ (e :: rest2).takeWhile isDigitC),
            (e :: rest2).dropWhile isDigitC, ?_, allDig_takeWhile _, hd1ne,
            Or.inr ⟨((d :: t0).dropWhile isDigitC).takeWhile isWS, u2.takeWhile isWS,
              (e :: rest2).takeWhile isDigitC, by simp, allWS_takeWhile _,
              allWS_takeWhile _, allDig_takeWhile _, hd2ne⟩, hw5⟩
          conv_lhs => rw [← hsplit, ← ht3, ← hu2, ← he2]
          simp [List.append_assoc]
        next => cases hB
      next => cases hB
  next => cases h

theorem lineNumTail_build (d1 g w5 : List Char) (hd : AllDig d1) (hne : d1 ≠ [])
    (hg : OfOpt g) (hw : AllWS w5) : lineNumTail (d1 ++ (g ++ w5)) = true := by
  obtain ⟨d, dtl, rfl⟩ : ∃ d dtl, d1 = d :: dtl := by
    cases d1 with
    | nil => exact absurd rfl hne
    | cons d dtl => exact ⟨d, dtl, rfl⟩
  have hdig : isDigitC d = true := hd d (by simp)
  have hnw5 : HeadNot isDigitC w5 := by
    cases w5 with
    | nil => simp [HeadNot]
    | cons x xs => exact (headNot_cons ..).mpr (ws_not_digit x (hw x (by simp)))
  have hrest : HeadNot isDigitC (g ++ w5) := by
    rcases hg with rfl | ⟨w3, w4, d2, rfl, h3, h4, hd2, hd2ne⟩
    · simpa using hnw5
    · cases w3 with
      | nil => exact (headNot_cons ..).mpr (by decide)
      | cons x xs =>
        exact (headNot_cons ..).mpr (ws_not_digit x (h3 x (by simp)))
  have hcons : (d :: dtl) ++ (g ++ w5) = d :: (dtl ++ (g ++ w5)) := by simp
  have hdrop : (d :: (dtl ++ (g ++ w5))).dropWhile isDigitC = g ++ w5 := by
    rw [← hcons]; exact dropWhile_split isDigitC _ _ hd hrest
  rw [hcons]
  unfold lineNumTail
  simp only [hdig, true_and, Bool.and_eq_true, hdrop]
  rcases hg with rfl | ⟨w3, w4, d2, rfl, h3, h4, hd2, hd2ne⟩
  · rw [Bool.or_eq_true]
    left
    rw [List.nil_append, List.isEmpty_iff, List.dropWhile_eq_nil_iff]
    exact hw
  · rw [Bool.or_eq_true]
    right
    obtain ⟨e, etl, rfl⟩ : ∃ e etl, d2 = e :: etl := by
      cases d2 with
      | nil => exact absurd rfl hd2ne
      | cons e etl => exact ⟨e, etl, rfl⟩
    have hedig : isDigitC e = true := hd2 e (by simp)
    simp only [List.append_assoc, List.cons_append]
    have hof : HeadNot isWS ('o' :: 'f' :: (w4 ++ (e :: (etl ++ w5)))) :=
      (headNot_cons ..).mpr (by decide)
    rw [dropWhile_split isWS w3 ('o' :: 'f' :: (w4 ++ (e :: (etl ++ w5)))) h3 hof]
    show lineOfNum ((w4 ++ (e :: (etl ++ w5))).dropWhile isWS) = true
    have hnexw : HeadNot isWS (e :: (etl ++ w5)) :=
      (headNot_cons ..).mpr (digit_not_ws e hedig)
    rw [dropWhile_split isWS w4 (e :: (etl ++ w5)) h4 hnexw]
    show (isDigitC e &&
      (((e :: (etl ++ w5)).dropWhile isDigitC).dropWhile isWS).isEmpty) = true
    rw [hedig, Bool.true_and]
    have hdd2 : (e :: (etl ++ w5)).dropWhile isDigitC = w5 := by
      rw [show e :: (etl ++ w5) = (e :: etl) ++ w5 from rfl]
      exact dropWhile_split isDigitC (e :: etl) w5 hd2 hnw5
    rw [hdd2, List.isEmpty_iff, List.dropWhile_eq_nil_iff]
    exact hw

theorem lineMatches_shape (L : List Char) (h : lineMatches L = true) :
    LineShape L := by
  unfold lineMatches at h
  have hL : L.takeWhile isWS ++ L.dropWhile isWS = L :=
    @List.takeWhile_append_dropWhile _ isWS L
  split at h
  next _ r heq =>
    obtain ⟨d1, g, w5, ht2, hdd, hdne, hog, hw5⟩ := lineNumTail_shape _ h
    have hr : r.takeWhile isWS ++ r.dropWhile isWS = r :=
      @List.takeWhile_append_dropWhile _ isWS r
    refine ⟨L.takeWhile isWS, 'P' :: 'a' :: 'g' :: 'e' :: r.takeWhile isWS,
      d1, g, w5, ?_, allWS_takeWhile L,
      Or.inr ⟨r.takeWhile isWS, rfl, allWS_takeWhile r⟩, hdd, hdne, hog, hw5⟩
    conv_lhs => rw [← hL, heq, ← hr, ht2]
    simp [List.append_assoc]
  next _ hne =>
    obtain ⟨d1, g, w5, ht2, hdd, hdne, hog, hw5⟩ := lineNumTail_shape _ h
    refine ⟨L.takeWhile isWS, [], d1, g, w5, ?_, allWS_takeWhile L,
      Or.inl rfl, hdd, hdne, hog, hw5⟩
    conv_lhs => rw [← hL, ht2]
    simp [List.append_assoc]

theorem lineShape_matches (L : List Char) (h : LineShape L) :
    lineMatches L = true := by
  obtain ⟨w1, pg, d1, g, w5, rfl, h1, hpg, hdd, hdne, hog, hw5⟩ := h
  obtain ⟨d, dtl, rfl⟩ : ∃ d dtl, d1 = d :: dtl := by
    cases d1 with
    | nil => exact absurd rfl hdne
    | cons d dtl => exact ⟨d, dtl, rfl⟩
  have hdig : isDigitC d = true := hdd d (by simp)
  have hnt := lineNumTail_build (d :: dtl) g w5 hdd hdne hog hw5
  rcases hpg with rfl | ⟨w2, rfl, hw2⟩
  · simp only [List.nil_append, List.cons_append]
    unfold lineMatches
    have hX : HeadNot isWS (d :: (dtl ++ (g ++ w5))) :=
      (headNot_cons ..).mpr (digit_not_ws d hdig)
    rw [dropWhile_split isWS w1 (d :: (dtl ++ (g ++ w5))) h1 hX]
    split
    next _ r heqp =>
      exfalso
      have hdP : d = 'P' := by
        have := congrArg (fun l => l.head?) heqp
        simpa using this
      rw [hdP] at hdig
      exact absurd hdig (by decide)
    next =>
      rw [show d :: (dtl ++ (g ++ w5)) = (d :: dtl) ++ (g ++ w5) from rfl]
      exact hnt
  · simp only [List.cons_append]
    unfold lineMatches
    have hX : HeadNot isWS
        ('P' :: 'a' :: 'g' :: 'e' :: (w2 ++ (d :: (dtl ++ (g ++ w5))))) :=
      (headNot_cons ..).mpr (by decide)
    rw [dropWhile_split isWS w1 _ h1 hX]
    show lineNumTail ((w2 ++ (d :: (dtl ++ (g ++ w5)))).dropWhile isWS) = true
    have hY : HeadNot isWS (d :: (dtl ++ (g ++ w5))) :=
      (headNot_cons ..).mpr (digit_not_ws d hdig)
    rw [dropWhile_split isWS w2 (d :: (dtl ++ (g ++ w5))) hw2 hY]
    rw [show d :: (dtl ++ (g ++ w5)) = (d :: dtl) ++ (g ++ w5) from rfl]
    exact hnt

/-! ### The scanning loop: canonical form and unfolding equations -/

/-- The scan with canonical fuel (the remaining length). -/
def noiseScan (b : Bool) (s : List Char) : List Char := noiseScanF s.length b s

theorem noiseScanF_step (n : Nat) (bol : Bool) (c : Char) (rest : List Char) :
    noiseScanF (n + 1) bol (c :: rest) =
      if bol then
        match matchNoise (c :: rest) with
        | some (m, r) => noiseScanF n (lastNL m) r
        | none => c :: noiseScanF n (c == '\n') rest
      else c :: noiseScanF n (c == '\n') rest := rfl

theorem noiseScanF_fuel : ∀ (n : Nat) (b : Bool) (s : List Char), s.length ≤ n →
    noiseScanF n b s = noiseScan b s := by
  intro n
  induction n using Nat.strong_induction_on with
  | _ n ih =>
    intro b s hlen
    cases s with
    | nil =>
      cases n with
      | zero => rfl
      | succ k => rfl
    | cons c rest =>
      cases n with
      | zero => simp at hlen
      | succ n2 =>
        have hr : rest.length ≤ n2 := by simpa using hlen
        show noiseScanF (n2 + 1) b (c :: rest)
          = noiseScanF (rest.length + 1) b (c :: rest)
        rw [noiseScanF_step, noiseScanF_step]
        cases b with
        | false =>
          have e1 := ih n2 (Nat.lt_succ_self n2) (c == '\n') rest hr
          have e2 := ih rest.length (Nat.lt_succ_of_le hr) (c == '\n') rest le_rfl
          simp only [if_false, Bool.false_eq_true]
          rw [e1, e2]
        | true =>
          simp only [if_true]
          cases hmn : matchNoise (c :: rest) with
          | none =>
            have e1 := ih n2 (Nat.lt_succ_self n2) (c == '\n') rest hr
            have e2 := ih rest.length (Nat.lt_succ_of_le hr) (c == '\n') rest le_rfl
            show c :: noiseScanF n2 (c == '\n') rest
              = c :: noiseScanF rest.length (c == '\n') rest
            rw [e1, e2]
          | some p =>
            obtain ⟨m, r⟩ := p
            obtain ⟨heq, hmne, _, _⟩ := matchNoise_some _ m r hmn
            have hrlen : r.length ≤ rest.length := by
              have : (c :: rest).length = m.length + r.length := by
                rw [heq]; simp
              simp only [List.length_cons] at this
              have hm1 : 1 ≤ m.length := by
                cases m with
                | nil => exact absurd rfl hmne
                | cons _ _ => simp
              omega
            have e1 := ih n2 (Nat.lt_succ_self n2) (lastNL m) r
              (le_trans hrlen hr)
            have e2 := ih rest.length (Nat.lt_succ_of_le hr) (lastNL m) r hrlen
            show noiseScanF n2 (lastNL m) r = noiseScanF rest.length (lastNL m) r
            rw [e1, e2]

theorem noiseScan_nil (b : Bool) : noiseScan b [] = [] := rfl

theorem noiseScan_false (c : Char) (rest : List Char) :
    noiseScan false (c :: rest) = c :: noiseScan (c == '\n') rest := by
  show noiseScanF (rest.length + 1) false (c :: rest) = _
  rw [noiseScanF_step]
  simp only [if_false, Bool.false_eq_true]
  rw [noiseScanF_fuel rest.length (c == '\n') rest le_rfl]

theorem noiseScan_match (c : Char) (rest m r : List Char)
    (h : matchNoise (c :: rest) = some (m, r)) :
    noiseScan true (c :: rest) = noiseScan (lastNL m) r := by
  show noiseScanF (rest.length + 1) true (c :: rest) = _
  rw [noiseScanF_step]
  simp only [if_true]
  rw [h]
  obtain ⟨heq, hmne, _, _⟩ := matchNoise_some _ m r h
  have hrlen : r.length ≤ rest.length := by
    have : (c :: rest).length = m.length + r.length := by
      rw [heq]; simp
    simp only [List.length_cons] at this
    have hm1 : 1 ≤ m.length := by
      cases m with
      | nil => exact absurd rfl hmne
      | cons _ _ => simp
    omega
  exact noiseScanF_fuel rest.length (lastNL m) r hrlen

theorem noiseScan_nomatch (c : Char) (rest : List Char)
    (h : matchNoise (c :: rest) = none) :
    noiseScan true (c :: rest) = c :: noiseScan (c == '\n') rest := by
  show noiseScanF (rest.length + 1) true (c :: rest) = _
  rw [noiseScanF_step]
  simp only [if_true]
  rw [h, noiseScanF_fuel rest.length (c == '\n') rest le_rfl]

theorem noiseStrip_eq_scan (s : List Char) : noiseStrip s = noiseScan true s := rfl

/-! ### Lines -/

theorem splitLines_nl (t : List Char) :
    splitLines ('\n' :: t) = [] :: splitLines t := by
  rw [splitLines]
  simp

theorem splitLines_ne_nil (s : List Char) : splitLines s ≠ [] := by
  induction s with
  | nil => simp [splitLines]
  | cons c t ih =>
    rw [splitLines]
    by_cases hc : c = '\n'
    · simp [hc]
    · simp only [hc, if_false]
      cases hs : splitLines t with
      | nil => simp
      | cons l ls => simp

theorem splitLines_no_nl (s : List Char) (h : '\n' ∉ s) : splitLines s = [s] := by
  induction s with
  | nil => rfl
  | cons c t ih =>
    rw [splitLines]
    have hc : ¬(c = '\n') := fun hx => h (by simp [hx])
    simp only [hc, if_false]
    rw [ih (fun hx => h (by simp [hx]))]

theorem splitLines_split (A t : List Char) (hA : '\n' ∉ A) :
    splitLines (A ++ '\n' :: t) = A :: splitLines t := by
  induction A with
  | nil => simp [splitLines_nl]
  | cons c A2 ih =>
    rw [List.cons_append, splitLines]
    have hc : ¬(c = '\n') := fun hx => hA (by simp [hx])
    simp only [hc, if_false]
    rw [ih (fun hx => hA (by simp [hx]))]

/-- Every text is a single newline-free line, or a first line plus a rest. -/
theorem firstNL_split (s : List Char) :
    ('\n' ∉ s) ∨ ∃ A t, s = A ++ '\n' :: t ∧ '\n' ∉ A := by
  induction s with
  | nil => left; simp
  | cons c rest ih =>
    by_cases hc : c = '\n'
    · right
      exact ⟨[], rest, by simp [hc], by simp⟩
    · rcases ih with hn | ⟨A, t, heq, hA⟩
      · left
        simp only [List.mem_cons]
        rintro (rfl | hx)
        · exact hc rfl
        · exact hn hx
      · right
        refine ⟨c :: A, t, by simp [heq], ?_⟩
        simp only [List.mem_cons]
        rintro (rfl | hx)
        · exact hc rfl
        · exact hA hx

/-! ### Single-line corollaries -/

/-- A line that fully matches the pattern is matched (and entirely
consumed) by the scanner\x27s match attempt. -/
theorem lineMatches_exact (L : List Char) (h : lineMatches L = true) :
    matchNoise L = some (L, []) := by
  obtain ⟨w1, pg, d1, g, w5, hL, h1, hpg, hdd, hdne, hog, hw5⟩ := lineMatches_shape L h
  rw [hL]
  exact matchNoise_exact w1 pg d1 g w5 h1 hpg hdd hdne hog hw5

/-- A line that fully matches the pattern still yields a match when more
text follows after a newline. -/
theorem lineMatches_ext (L s2 : List Char) (h : lineMatches L = true) :
    (matchNoise (L ++ '\n' :: s2)).isSome := by
  obtain ⟨w1, pg, d1, g, w5, hL, h1, hpg, hdd, hdne, hog, hw5⟩ := lineMatches_shape L h
  rw [hL]
  have hb := matchNoise_build_isSome w1 pg d1 g w5 ('\n' :: s2) h1 hpg hdd hdne hog hw5
    (Or.inr ⟨s2, rfl⟩)
  simpa [List.append_assoc] using hb

/-- If the match attempt fails on a one-line text, the line does not
match the pattern. -/
theorem matchFail_line_self (A : List Char) (hm : matchNoise A = none) :
    lineMatches A = false := by
  by_cases h : lineMatches A = true
  · rw [lineMatches_exact A h] at hm; cases hm
  · simpa using h

/-- If the match attempt fails at a line start, the first line does not
match the pattern. -/
theorem matchFail_line_ext (A t : List Char) (hm : matchNoise (A ++ '\n' :: t) = none) :
    lineMatches A = false := by
  by_cases h : lineMatches A = true
  · have := lineMatches_ext A t h
    rw [hm] at this
    cases this
  · simpa using h

/-! ### Dissecting a match against the first line -/

theorem peel_lit (c : Char) (hc : c ≠ '\n') (X B v2 : List Char)
    (h : c :: X = B ++ '\n' :: v2) (hB : '\n' ∉ B) :
    ∃ B2, B = c :: B2 ∧ X = B2 ++ '\n' :: v2 ∧ '\n' ∉ B2 := by
  cases B with
  | nil =>
    simp only [List.nil_append, List.cons.injEq] at h
    exact absurd h.1 hc
  | cons b B2 =>
    simp only [List.cons_append, List.cons.injEq] at h
    refine ⟨B2, by rw [h.1], h.2, ?_⟩
    intro hx
    exact hB (by simp [hx])

/-- Where does the first newline of `A ++ '\n' :: v2` fall relative to a
decomposition `X ++ Y`: entirely after `X`, or inside `X`. -/
theorem split_firstNL (X Y A v2 : List Char) (h : X ++ Y = A ++ '\n' :: v2)
    (hA : '\n' ∉ A) :
    ('\n' ∉ X ∧ ∃ B, A = X ++ B ∧ Y = B ++ '\n' :: v2 ∧ '\n' ∉ B) ∨
    (∃ C, X = A ++ '\n' :: C ∧ v2 = C ++ Y) := by
  induction X generalizing A with
  | nil =>
    left
    exact ⟨by simp, A, by simp, by simpa using h, hA⟩
  | cons x xs ihx =>
    cases A with
    | nil =>
      right
      simp only [List.nil_append, List.cons_append, List.cons.injEq] at h
      exact ⟨xs, by rw [h.1]; simp, h.2.symm⟩
    | cons a A2 =>
      simp only [List.cons_append, List.cons.injEq] at h
      obtain ⟨hxa, h2⟩ := h
      have hA2 : '\n' ∉ A2 := fun hx => hA (by simp [hx])
      rcases ihx A2 h2 hA2 with ⟨hnX, B, hAB, hYB, hB⟩ | ⟨C, hXC, hv⟩
      · left
        refine ⟨?_, B, by rw [hAB, hxa]; rfl, hYB, hB⟩
        simp only [List.mem_cons]
        rintro (rfl | hx)
        · exact hA (List.mem_cons.mpr (Or.inl hxa))
        · exact hnX hx
      · right
        exact ⟨C, by rw [hXC, hxa]; rfl, hv⟩

/--
Analysis of a successful match whose consumed text crosses the first
newline, restricted to the part after the first digit run: either the
remainder of the first line after the match start is itself a full
pattern tail (so the caller can conclude the first line matches), or a
fresh match attempt succeeds at the start of the second line.
-/
theorem step_tail (d1 g f r B v2 : List Char) (hdd : AllDig d1) (_hdne : d1 ≠ [])
    (hog : OfOpt g) (hfw : AllWS f) (hnr : NLHead r)
    (heq : d1 ++ (g ++ (f ++ r)) = B ++ '\n' :: v2) (hB : '\n' ∉ B) :
    (matchNoise v2).isSome ∨
      ∃ g2 w5, B = d1 ++ (g2 ++ w5) ∧ OfOpt g2 ∧ AllWS w5 := by
  rcases split_firstNL d1 _ B v2 heq hB with ⟨hnD, B2, hB2, hY, hB2n⟩ | ⟨C, hd1C, _⟩
  swap
  · exfalso
    have : isDigitC '\n' = true := hdd '\n' (by rw [hd1C]; simp)
    exact absurd this (by decide)
  rcases hog with rfl | ⟨w3, w4, d2, rfl, h3, h4, hd2, hd2ne⟩
  · rw [List.nil_append] at hY
    rcases split_firstNL f r B2 v2 hY hB2n with ⟨hnf, B3, hB3, hr2, hB3n⟩ | ⟨C5, hfC, _⟩
    swap
    · right
      refine ⟨[], B2, by rw [hB2]; simp, Or.inl rfl, ?_⟩
      intro c hc
      exact hfw c (by rw [hfC]; simp [hc])
    · rcases hnr with rfl | ⟨r2, hr3⟩
      · simp at hr2
      · have hB3nil : B3 = [] := by
          cases B3 with
          | nil => rfl
          | cons b B4 =>
            rw [hr3] at hr2
            simp only [List.cons_append, List.cons.injEq] at hr2
            exact absurd (by simp [← hr2.1]) hB3n
        right
        refine ⟨[], f, ?_, Or.inl rfl, hfw⟩
        rw [hB2, hB3, hB3nil]
        simp
  · simp only [List.append_assoc, List.cons_append] at hY
    rcases split_firstNL w3 _ B2 v2 hY hB2n with ⟨hnw3, B4, hB4, hY2, hB4n⟩ | ⟨C3, hw3C, _⟩
    swap
    · right
      refine ⟨[], B2, by rw [hB2]; simp, Or.inl rfl, ?_⟩
      intro c hc
      exact h3 c (by rw [hw3C]; simp [hc])
    · obtain ⟨B5, hB5, hY3, hB5n⟩ := peel_lit 'o' (by decide) _ B4 v2 hY2 hB4n
      obtain ⟨B6, hB6, hY4, hB6n⟩ := peel_lit 'f' (by decide) _ B5 v2 hY3 hB5n
      rcases split_firstNL w4 _ B6 v2 hY4 hB6n with ⟨hnw4, B7, hB7, hY5, hB7n⟩ | ⟨C4, hw4C, hv2⟩
      swap
      · left
        have hC4 : AllWS C4 := fun c hc => h4 c (by rw [hw4C]; simp [hc])
        have hb := matchNoise_build_isSome C4 [] d2 [] f r hC4 (Or.inl rfl)
          hd2 hd2ne (Or.inl rfl) hfw hnr
        simpa [hv2] using hb
      · rcases split_firstNL d2 _ B7 v2 hY5 hB7n with ⟨hnd2, B8, hB8, hY6, hB8n⟩ | ⟨C5, hd2C, _⟩
        swap
        · exfalso
          have : isDigitC '\n' = true := hd2 '\n' (by rw [hd2C]; simp)
          exact absurd this (by decide)
        · rcases split_firstNL f r B8 v2 hY6 hB8n with ⟨hnf, B9, hB9, hr2, hB9n⟩ | ⟨C6, hfC, _⟩
          swap
          · right
            refine ⟨w3 ++ 'o' :: 'f' :: (w4 ++ d2), B8, ?_,
              Or.inr ⟨w3, w4, d2, rfl, h3, h4, hd2, hd2ne⟩, ?_⟩
            · rw [hB2, hB4, hB5, hB6, hB7, hB8]
              simp [List.append_assoc]
            · intro c hc
              exact hfw c (by rw [hfC]; simp [hc])
          · rcases hnr with rfl | ⟨r2, hr3⟩
            · simp at hr2
            · have hB9nil : B9 = [] := by
                cases B9 with
                | nil => rfl
                | cons b B10 =>
                  rw [hr3] at hr2
                  simp only [List.cons_append, List.cons.injEq] at hr2
                  exact absurd (by simp [← hr2.1]) hB9n
              right
              refine ⟨w3 ++ 'o' :: 'f' :: (w4 ++ d2), f, ?_,
                Or.inr ⟨w3, w4, d2, rfl, h3, h4, hd2, hd2ne⟩, hfw⟩
              rw [hB2, hB4, hB5, hB6, hB7, hB8, hB9, hB9nil]
              simp [List.append_assoc]

/--
Core of the idempotence argument: if a match attempt succeeds at a line
start but the first line alone is not a full pattern instance, then a
match attempt also succeeds at the start of the following text.
-/
theorem matchSome_tail (A v2 : List Char) (hA : '\n' ∉ A)
    (hL : lineMatches A = false) (hs : (matchNoise (A ++ '\n' :: v2)).isSome) :
    (matchNoise v2).isSome := by
  obtain ⟨p, hp⟩ := Option.isSome_iff_exists.mp hs
  obtain ⟨m, r⟩ := p
  obtain ⟨heq, hmne, hnr, w1, pg, d1, g, f, hm, h1, hpg, hdd, hdne, hog, hfw⟩ :=
    matchNoise_some _ m r hp
  have heq2 : w1 ++ (pg ++ (d1 ++ (g ++ (f ++ r)))) = A ++ '\n' :: v2 := by
    conv_rhs => rw [heq, hm]
    simp [List.append_assoc]
  rcases split_firstNL w1 _ A v2 heq2 hA with ⟨hnw1, B, hAB, hY, hBn⟩ | ⟨C, hw1C, hv2⟩
  swap
  · have hC : AllWS C := fun c hc => h1 c (by rw [hw1C]; simp [hc])
    have hb := matchNoise_build_isSome C pg d1 g f r hC hpg hdd hdne hog hfw hnr
    simpa [hv2] using hb
  rcases hpg with rfl | ⟨w2, rfl, hw2⟩
  · rw [List.nil_append] at hY
    rcases step_tail d1 g f r B v2 hdd hdne hog hfw hnr hY hBn with
      hsucc | ⟨g2, w5, hBshape, hog2, hw5⟩
    · exact hsucc
    · exfalso
      have hAm : lineMatches A = true := by
        apply lineShape_matches
        exact ⟨w1, [], d1, g2, w5, by rw [hAB, hBshape]; simp, h1, Or.inl rfl,
          hdd, hdne, hog2, hw5⟩
      rw [hL] at hAm
      cases hAm
  · simp only [List.cons_append] at hY
    obtain ⟨B1, hBe1, hY1, hB1n⟩ := peel_lit 'P' (by decide) _ B v2 hY hBn
    obtain ⟨B2, hBe2, hY2, hB2n⟩ := peel_lit 'a' (by decide) _ B1 v2 hY1 hB1n
    obtain ⟨B3, hBe3, hY3, hB3n⟩ := peel_lit 'g' (by decide) _ B2 v2 hY2 hB2n
    obtain ⟨B4, hBe4, hY4, hB4n⟩ := peel_lit 'e' (by decide) _ B3 v2 hY3 hB3n
    rcases split_firstNL w2 _ B4 v2 hY4 hB4n with ⟨hnw2, B5, hB5, hY5, hB5n⟩ | ⟨C, hw2C, hv2⟩
    swap
    · have hC : AllWS C := fun c hc => hw2 c (by rw [hw2C]; simp [hc])
      have hb := matchNoise_build_isSome C [] d1 g f r hC (Or.inl rfl)
        hdd hdne hog hfw hnr
      simpa [hv2] using hb
    · rcases step_tail d1 g f r B5 v2 hdd hdne hog hfw hnr hY5 hB5n with
        hsucc | ⟨g2, w5, hBshape, hog2, hw5⟩
      · exact hsucc
      · exfalso
        have hAm : lineMatches A = true := by
          apply lineShape_matches
          refine ⟨w1, 'P' :: 'a' :: 'g' :: 'e' :: w2, d1, g2, w5, ?_, h1,
            Or.inr ⟨w2, rfl, hw2⟩, hdd, hdne, hog2, hw5⟩
          rw [hAB, hBe1, hBe2, hBe3, hBe4, hB5, hBshape]
          simp [List.append_assoc]
        rw [hL] at hAm
        cases hAm

/-! ### Every line of the scanner output fails the pattern -/

theorem matchNoise_nil : matchNoise ([] : List Char) = none := rfl

theorem match_rem_len (c : Char) (rest m r : List Char)
    (h : matchNoise (c :: rest) = some (m, r)) : r.length ≤ rest.length := by
  obtain ⟨heq, hmne, _, _⟩ := matchNoise_some _ m r h
  have hlen : (c :: rest).length = m.length + r.length := by
    rw [heq]; simp
  simp only [List.length_cons] at hlen
  have hm1 : 1 ≤ m.length := by
    cases m with
    | nil => exact absurd rfl hmne
    | cons _ _ => simp
  omega

/-- On a newline-free text a successful match attempt means the whole
text is one full pattern instance. -/
theorem matchSome_noNL (v : List Char) (hnn : '\n' ∉ v)
    (hs : (matchNoise v).isSome) : lineMatches v = true := by
  obtain ⟨p, hp⟩ := Option.isSome_iff_exists.mp hs
  obtain ⟨m, r⟩ := p
  obtain ⟨heq, hmne, hnr, w1, pg, d1, g, f, hm, h1, hpg, hdd, hdne, hog, hfw⟩ :=
    matchNoise_some _ m r hp
  rcases hnr with rfl | ⟨r2, rfl⟩
  · rw [List.append_nil] at heq
    apply lineShape_matches
    exact ⟨w1, pg, d1, g, f, by rw [heq, hm], h1, hpg, hdd, hdne, hog, hfw⟩
  · exact absurd (by rw [heq]; simp : '\n' ∈ v) hnn

/-- A successful match attempt at a line start implies some line of the
text from there on is a full pattern instance. -/
theorem matchSome_line (n : Nat) : ∀ v : List Char, v.length ≤ n →
    (matchNoise v).isSome → ∃ L ∈ splitLines v, lineMatches L = true := by
  induction n with
  | zero =>
    intro v hlen hs
    have : v = [] := List.length_eq_zero.mp (Nat.le_zero.mp hlen)
    rw [this, matchNoise_nil] at hs
    cases hs
  | succ n ih =>
    intro v hlen hs
    rcases firstNL_split v with hnn | ⟨A, t, rfl, hA⟩
    · refine ⟨v, ?_, matchSome_noNL v hnn hs⟩
      rw [splitLines_no_nl v hnn]
      simp
    · by_cases hLA : lineMatches A = true
      · refine ⟨A, ?_, hLA⟩
        rw [splitLines_split A t hA]
        simp
      · have hs2 : (matchNoise t).isSome :=
          matchSome_tail A t hA (by simpa using hLA) hs
        have hlt : t.length ≤ n := by
          have : (A ++ '\n' :: t).length = A.length + (t.length + 1) := by simp
          omega
        obtain ⟨L, hL1, hL2⟩ := ih t hlt hs2
        refine ⟨L, ?_, hL2⟩
        rw [splitLines_split A t hA]
        simp [hL1]

theorem noiseScan_false_noNL (s : List Char) (h : '\n' ∉ s) :
    noiseScan false s = s := by
  induction s with
  | nil => rfl
  | cons c rest ih =>
    rw [noiseScan_false]
    have hc : (c == '\n') = false := by
      simp only [beq_eq_false_iff_ne, ne_eq]
      intro hx
      exact h (by simp [hx])
    rw [hc, ih (fun hx => h (by simp [hx]))]

theorem noiseScan_false_split (A t : List Char) (hA : '\n' ∉ A) :
    noiseScan false (A ++ '\n' :: t) = A ++ '\n' :: noiseScan true t := by
  induction A with
  | nil =>
    rw [List.nil_append, noiseScan_false]
    simp
  | cons c A2 ih =>
    rw [List.cons_append, noiseScan_false]
    have hc : (c == '\n') = false := by
      simp only [beq_eq_false_iff_ne, ne_eq]
      intro hx
      exact hA (by simp [hx])
    rw [hc, ih (fun hx => hA (by simp [hx]))]
    simp

/-- Every line of the scanner output fails the single-line pattern. -/
theorem scan_lines_fail (n : Nat) : ∀ s : List Char, s.length ≤ n →
    ∀ L ∈ splitLines (noiseScan true s), lineMatches L = false := by
  induction n with
  | zero =>
    intro s hlen L hL
    have : s = [] := List.length_eq_zero.mp (Nat.le_zero.mp hlen)
    rw [this, noiseScan_nil] at hL
    simp only [splitLines] at hL
    simp only [List.mem_singleton] at hL
    rw [hL]
    decide
  | succ n ih =>
    intro s hlen L hL
    cases s with
    | nil =>
      rw [noiseScan_nil] at hL
      simp only [splitLines, List.mem_singleton] at hL
      rw [hL]
      decide
    | cons c rest =>
      have hrn : rest.length ≤ n := by simpa using hlen
      cases hmn : matchNoise (c :: rest) with
      | some p =>
        obtain ⟨m, r⟩ := p
        rw [noiseScan_match c rest m r hmn] at hL
        obtain ⟨heq, hmne, hnr, _⟩ := matchNoise_some _ m r hmn
        have hrlen := match_rem_len c rest m r hmn
        rcases hnr with rfl | ⟨r2, rfl⟩
        · rw [noiseScan_nil] at hL
          simp only [splitLines, List.mem_singleton] at hL
          rw [hL]
          decide
        · have hr2 : r2.length ≤ n := by
            simp only [List.length_cons] at hrlen
            omega
          cases hb : lastNL m with
          | true =>
            have := ih ('\n' :: r2)
              (by simp only [List.length_cons] at hrlen ⊢; omega) L
              (by rw [← hb]; exact hL)
            exact this
          | false =>
            rw [hb] at hL
            rw [noiseScan_false] at hL
            simp only [beq_self_eq_true] at hL
            rw [splitLines_nl] at hL
            simp only [List.mem_cons] at hL
            rcases hL with rfl | hL
            · decide
            · exact ih r2 hr2 L hL
      | none =>
        rw [noiseScan_nomatch c rest hmn] at hL
        by_cases hc : c = '\n'
        · subst hc
          simp only [beq_self_eq_true] at hL
          rw [splitLines_nl] at hL
          simp only [List.mem_cons] at hL
          rcases hL with rfl | hL
          · decide
          · exact ih rest hrn L hL
        · have hcb : (c == '\n') = false := by
            simp only [beq_eq_false_iff_ne, ne_eq]
            exact hc
          rw [hcb] at hL
          rcases firstNL_split rest with hnn | ⟨A, t, rfl, hA⟩
          · rw [noiseScan_false_noNL rest hnn] at hL
            have hcr : '\n' ∉ c :: rest := by
              simp only [List.mem_cons]
              rintro (rfl | hx)
              · exact hc rfl
              · exact hnn hx
            rw [splitLines_no_nl (c :: rest) hcr] at hL
            simp only [List.mem_singleton] at hL
            rw [hL]
            exact matchFail_line_self (c :: rest) hmn
          · rw [noiseScan_false_split A t hA] at hL
            have hcA : '\n' ∉ c :: A := by
              simp only [List.mem_cons]
              rintro (rfl | hx)
              · exact hc rfl
              · exact hA hx
            rw [show c :: (A ++ '\n' :: noiseScan true t)
                = (c :: A) ++ '\n' :: noiseScan true t from by simp] at hL
            rw [splitLines_split (c :: A) _ hcA] at hL
            simp only [List.mem_cons] at hL
            rcases hL with rfl | hL
            · exact matchFail_line_ext (c :: A) t
                (by rw [show (c :: A) ++ '\n' :: t = c :: (A ++ '\n' :: t) from by simp]
                    exact hmn)
            · have ht : t.length ≤ n := by
                have : (A ++ '\n' :: t).length = A.length + (t.length + 1) := by simp
                omega
              exact ih t ht L hL

/-- If no line of a text matches the pattern, the scanner leaves the
text unchanged. -/
theorem scan_id (n : Nat) : ∀ t : List Char, t.length ≤ n →
    (∀ L ∈ splitLines t, lineMatches L = false) → noiseScan true t = t := by
  induction n with
  | zero =>
    intro t hlen _
    rw [List.length_eq_zero.mp (Nat.le_zero.mp hlen)]
    rfl
  | succ n ih =>
    intro t hlen hall
    cases t with
    | nil => rfl
    | cons c rest =>
      have hrn : rest.length ≤ n := by simpa using hlen
      have hmn : matchNoise (c :: rest) = none := by
        cases hx : matchNoise (c :: rest) with
        | none => rfl
        | some p =>
          exfalso
          obtain ⟨L, hL1, hL2⟩ := matchSome_line (c :: rest).length (c :: rest)
            le_rfl (by rw [hx]; rfl)
          rw [hall L hL1] at hL2
          cases hL2
      rw [noiseScan_nomatch c rest hmn]
      by_cases hc : c = '\n'
      · subst hc
        simp only [beq_self_eq_true]
        rw [ih rest hrn]
        intro L hL
        exact hall L (by rw [splitLines_nl]; simp [hL])
      · have hcb : (c == '\n') = false := by
          simp only [beq_eq_false_iff_ne, ne_eq]
          exact hc
        rw [hcb]
        rcases firstNL_split rest with hnn | ⟨A, t2, rfl, hA⟩
        · rw [noiseScan_false_noNL rest hnn]
        · rw [noiseScan_false_split A t2 hA]
          have ht2 : t2.length ≤ n := by
            have : (A ++ '\n' :: t2).length = A.length + (t2.length + 1) := by simp
            omega
          have hcA : '\n' ∉ c :: A := by
            simp only [List.mem_cons]
            rintro (rfl | hx)
            · exact hc rfl
            · exact hA hx
          rw [ih t2 ht2]
          intro L hL
          apply hall L
          rw [show c :: (A ++ '\n' :: t2) = (c :: A) ++ '\n' :: t2 from by simp]
          rw [splitLines_split (c :: A) _ hcA]
          simp [hL]

/-- On a single line (newline-free text) the stripper erases the line
exactly when the whole line matches the pattern. -/
theorem noiseStrip_single (L : List Char) (h : '\n' ∉ L) :
    noiseStrip L = if lineMatches L = true then [] else L := by
  cases hm : lineMatches L with
  | false =>
    simp only [hm, Bool.false_eq_true, reduceIte]
    have hmn : matchNoise L = none := by
      cases hx : matchNoise L with
      | none => rfl
      | some p =>
        have hc := matchSome_noNL L h (by rw [hx]; rfl)
        rw [hm] at hc
        cases hc
    cases L with
    | nil => rfl
    | cons c rest =>
      rw [noiseStrip_eq_scan, noiseScan_nomatch c rest hmn]
      have hc : (c == '\n') = false := by
        simp only [beq_eq_false_iff_ne, ne_eq]
        intro hx
        exact h (by simp [hx])
      rw [hc, noiseScan_false_noNL rest (fun hx => h (by simp [hx]))]
  | true =>
    simp only [hm, reduceIte]
    have hex := lineMatches_exact L hm
    cases L with
    | nil => rfl
    | cons c rest =>
      rw [noiseStrip_eq_scan, noiseScan_match c rest (c :: rest) [] hex, noiseScan_nil]

/-- C4 (corrected): on any single line, the Noise Stripper removes the
line exactly when its entire content is optional whitespace, optional
"Page", a number, an optional "of N" group, and trailing whitespace.
The matching is NOT per-line independent, however: the whitespace
classes of the pattern cross newlines, so one match can consume several
lines, as on the text "1\nof 2" which is erased entirely even though
its second line "of 2" is prose that matches nothing on its own. -/
theorem noiseStrip_per_line_corrected :
    (∀ L : List Char, '\n' ∉ L →
        noiseStrip L = if lineMatches L = true then [] else L) ∧
    noiseStrip ['1', '\n', 'o', 'f', ' ', '2'] = [] :=
  ⟨noiseStrip_single, by decide⟩

theorem noiseStrip_per_line_corrected_witness :
    noiseStrip ['P', 'a', 'g', 'e', ' ', '3'] = [] := by
  have h := noiseStrip_per_line_corrected.1 ['P', 'a', 'g', 'e', ' ', '3'] (by decide)
  rw [h]
  decide

/-- The code erases the two-line text "1\nof 2" entirely, while a
stripper that matched each line independently would keep the second
line "of 2", which on its own matches nothing. -/
theorem noiseStrip_cross_line_cx :
    noiseStrip ['1', '\n', 'o', 'f', ' ', '2'] = [] ∧
    specNoiseStrip ['1', '\n', 'o', 'f', ' ', '2'] = ['o', 'f', ' ', '2'] ∧
    lineMatches ['o', 'f', ' ', '2'] = false := by
  decide

/-- C5: the Noise Stripper is idempotent: applying it twice yields the
same result as applying it once, and its output contains no line that
the pattern would still match in isolation. -/
theorem noiseStrip_idempotent (s : List Char) :
    noiseStrip (noiseStrip s) = noiseStrip s ∧
    ∀ L ∈ splitLines (noiseStrip s), lineMatches L = false := by
  have hP : ∀ L ∈ splitLines (noiseScan true s), lineMatches L = false :=
    scan_lines_fail s.length s le_rfl
  simp only [noiseStrip_eq_scan]
  exact ⟨scan_id (noiseScan true s).length (noiseScan true s) le_rfl hP, hP⟩

theorem noiseStrip_idempotent_witness :
    noiseStrip (noiseStrip ['5', '\n', 'x']) = noiseStrip ['5', '\n', 'x'] ∧
    lineMatches ['x'] = false :=
  ⟨(noiseStrip_idempotent ['5', '\n', 'x']).1,
    (noiseStrip_idempotent ['5', '\n', 'x']).2 ['x'] (by decide)⟩

/-! ## Image relinker (ocr_pdf_to_markdown, lines 42-51)

The placeholder pattern built by the code is
`\( <escaped id> (\.[a-z]{3,4})? \)`: a parenthesis, the image id taken
literally, an optional dot-extension of three or four lowercase
letters, and a closing parenthesis.  `re.sub` replaces every
non-overlapping occurrence scanning left to right, the optional group
being greedy (four letters tried before three before none). -/

def dropLit : List Char → List Char → Option (List Char)
  | [], t => some t
  | _ :: _, [] => none
  | c :: p, d :: t => if c = d then dropLit p t else none

def takeLower : Nat → List Char → Option (List Char × List Char)
  | 0, t => some ([], t)
  | _ + 1, [] => none
  | n + 1, c :: t =>
    if isLowerC c then (takeLower n t).map (fun p => (c :: p.1, p.2)) else none

def matchClose : List Char → Option (List Char)
  | c :: v => if c = ')' then some v else none
  | [] => none

def ext3 (u2 : List Char) : Option (List Char) :=
  match takeLower 3 u2 with
  | some p => matchClose p.2
  | none => none

def extAfterDot (u2 : List Char) : Option (List Char) :=
  match takeLower 4 u2 with
  | some p =>
    match matchClose p.2 with
    | some v => some v
    | none => ext3 u2
  | none => ext3 u2

def extMatch : List Char → Option (List Char)
  | c :: u2 => if c = '.' then extAfterDot u2 else none
  | [] => none

def orClose (u : List Char) : Option (List Char) :=
  match extMatch u with
  | some v => some v
  | none => matchClose u

def matchTail (imgid t : List Char) : Option (List Char) :=
  match dropLit imgid t with
  | some u => orClose u
  | none => none

def matchPat (imgid s : List Char) : Option (List Char) :=
  match s with
  | c :: t => if c = '(' then matchTail imgid t else none
  | [] => none

def subImgF : Nat → List Char → List Char → List Char → List Char
  | 0, _, _, s => s
  | _ + 1, _, _, [] => []
  | n + 1, imgid, uri, c :: rest =>
    match matchPat imgid (c :: rest) with
    | some v => '(' :: (uri ++ ')' :: subImgF n imgid uri v)
    | none => c :: subImgF n imgid uri rest

def subImg (imgid uri s : List Char) : List Char := subImgF s.length imgid uri s

def dataMark : List Char := ['d', 'a', 't', 'a', ':']

def jpegMark : List Char :=
  ['d', 'a', 't', 'a', ':', 'i', 'm', 'a', 'g', 'e', '/', 'j', 'p', 'e', 'g',
   ';', 'b', 'a', 's', 'e', '6', '4', ',']

def imageUri (d : List Char) : List Char :=
  match dropLit dataMark d with
  | some _ => d
  | none => jpegMark ++ d

structure EmbImage where
  id : List Char
  image_base64 : Option (List Char)

def relinkImage (content : List Char) (img : EmbImage) : List Char :=
  match img.image_base64 with
  | some (c :: cs) => subImg img.id (imageUri (c :: cs)) content
  | _ => content

structure Page where
  markdown : List Char
  images : List EmbImage

def processPage (p : Page) : List Char :=
  noiseStrip (p.images.foldl relinkImage p.markdown)

def ocrToMarkdown (pages : List Page) : List Char :=
  pages.foldl (fun acc p => acc ++ processPage p) []

theorem dropLit_append (p t : List Char) : dropLit p (p ++ t) = some t := by
  induction p with
  | nil => rfl
  | cons c p ih => simp [dropLit, ih]

theorem dropLit_some (p : List Char) : ∀ d t, dropLit p d = some t → d = p ++ t := by
  induction p with
  | nil =>
    intro d t h
    simp only [dropLit, Option.some.injEq] at h
    simp [h]
  | cons c p ih =>
    intro d t h
    cases d with
    | nil => simp [dropLit] at h
    | cons e t2 =>
      simp only [dropLit] at h
      split at h
      next hce =>
        subst hce
        rw [ih t2 t h, List.cons_append]
      next => cases h

theorem matchClose_some (u v : List Char) (h : matchClose u = some v) :
    u = ')' :: v := by
  cases u with
  | nil => cases h
  | cons c u2 =>
    simp only [matchClose] at h
    split at h
    next hc =>
      subst hc
      simp only [Option.some.injEq] at h
      rw [h]
    next => cases h

theorem matchClose_cons (v : List Char) : matchClose (')' :: v) = some v := by
  show (if ')' = ')' then some v else none) = some v
  rw [if_pos rfl]

theorem extMatch_dot (u2 : List Char) : extMatch ('.' :: u2) = extAfterDot u2 := by
  show (if '.' = '.' then extAfterDot u2 else none) = extAfterDot u2
  rw [if_pos rfl]

theorem extMatch_notdot (c : Char) (u2 : List Char) (h : ¬ c = '.') :
    extMatch (c :: u2) = none := by
  show (if c = '.' then extAfterDot u2 else none) = none
  rw [if_neg h]

theorem takeLower_some (n : Nat) : ∀ t w r, takeLower n t = some (w, r) → t = w ++ r := by
  induction n with
  | zero =>
    intro t w r h
    simp only [takeLower, Option.some.injEq, Prod.mk.injEq] at h
    obtain ⟨h1, h2⟩ := h
    simp [← h1, ← h2]
  | succ n ih =>
    intro t w r h
    cases t with
    | nil => simp [takeLower] at h
    | cons c t2 =>
      simp only [takeLower] at h
      split at h
      next =>
        rw [Option.map_eq_some'] at h
        obtain ⟨p, hp, hf⟩ := h
        simp only [Prod.mk.injEq] at hf
        obtain ⟨h1, h2⟩ := hf
        rw [← h1, ← h2, List.cons_append, ← ih t2 p.1 p.2 (by rw [hp])]
      next => cases h

theorem ext3_hit (u2 : List Char) (p : List Char × List Char)
    (h : takeLower 3 u2 = some p) : ext3 u2 = matchClose p.2 := by
  unfold ext3
  rw [h]

theorem ext3_nohit (u2 : List Char) (h : takeLower 3 u2 = none) : ext3 u2 = none := by
  unfold ext3
  rw [h]

theorem extAfterDot_hit (u2 : List Char) (p : List Char × List Char) (v : List Char)
    (h4 : takeLower 4 u2 = some p) (hc : matchClose p.2 = some v) :
    extAfterDot u2 = some v := by
  unfold extAfterDot
  rw [h4]
  show (match matchClose p.2 with | some v => some v | none => ext3 u2) = some v
  rw [hc]

theorem extAfterDot_miss4 (u2 : List Char) (p : List Char × List Char)
    (h4 : takeLower 4 u2 = some p) (hc : matchClose p.2 = none) :
    extAfterDot u2 = ext3 u2 := by
  unfold extAfterDot
  rw [h4]
  show (match matchClose p.2 with | some v => some v | none => ext3 u2) = ext3 u2
  rw [hc]

theorem extAfterDot_no4 (u2 : List Char) (h4 : takeLower 4 u2 = none) :
    extAfterDot u2 = ext3 u2 := by
  unfold extAfterDot
  rw [h4]

theorem orClose_some (u v : List Char) (h : extMatch u = some v) :
    orClose u = some v := by
  unfold orClose
  rw [h]

theorem orClose_none (u : List Char) (h : extMatch u = none) :
    orClose u = matchClose u := by
  unfold orClose
  rw [h]

theorem matchTail_some_lit (imgid t u : List Char) (h : dropLit imgid t = some u) :
    matchTail imgid t = orClose u := by
  unfold matchTail
  rw [h]

theorem matchTail_none_lit (imgid t : List Char) (h : dropLit imgid t = none) :
    matchTail imgid t = none := by
  unfold matchTail
  rw [h]

theorem matchPat_cons (imgid : List Char) (c : Char) (t : List Char) :
    matchPat imgid (c :: t) = if c = '(' then matchTail imgid t else none := rfl

theorem ext3_len (u2 v : List Char) (h : ext3 u2 = some v) : v.length ≤ u2.length := by
  cases hx : takeLower 3 u2 with
  | none => rw [ext3_nohit u2 hx] at h; cases h
  | some p =>
    rw [ext3_hit u2 p hx] at h
    have hu := takeLower_some 3 u2 p.1 p.2 (by rw [hx])
    have hv := matchClose_some p.2 v h
    rw [hu, hv]
    simp
    omega

theorem extAfterDot_len (u2 v : List Char) (h : extAfterDot u2 = some v) :
    v.length ≤ u2.length := by
  cases hx : takeLower 4 u2 with
  | none =>
    rw [extAfterDot_no4 u2 hx] at h
    exact ext3_len u2 v h
  | some p =>
    cases hc : matchClose p.2 with
    | none =>
      rw [extAfterDot_miss4 u2 p hx hc] at h
      exact ext3_len u2 v h
    | some w =>
      rw [extAfterDot_hit u2 p w hx hc] at h
      have hwv := Option.some.inj h
      subst hwv
      have hu := takeLower_some 4 u2 p.1 p.2 (by rw [hx])
      have hv := matchClose_some p.2 w hc
      rw [hu, hv]
      simp
      omega

theorem extMatch_len (u v : List Char) (h : extMatch u = some v) :
    v.length ≤ u.length := by
  cases u with
  | nil => simp [extMatch] at h
  | cons c u2 =>
    by_cases hc : c = '.'
    · subst hc
      rw [extMatch_dot] at h
      have := extAfterDot_len u2 v h
      simp only [List.length_cons]
      omega
    · rw [extMatch_notdot c u2 hc] at h
      cases h

theorem matchClose_len (u v : List Char) (h : matchClose u = some v) :
    v.length ≤ u.length := by
  rw [matchClose_some u v h]
  simp

theorem matchTail_len (imgid t v : List Char) (h : matchTail imgid t = some v) :
    v.length ≤ t.length := by
  cases hx : dropLit imgid t with
  | none => rw [matchTail_none_lit imgid t hx] at h; cases h
  | some u =>
    rw [matchTail_some_lit imgid t u hx] at h
    have htu := dropLit_some imgid t u hx
    have hu : u.length ≤ t.length := by rw [htu]; simp
    cases he : extMatch u with
    | some w =>
      rw [orClose_some u w he] at h
      have hwv := Option.some.inj h
      subst hwv
      exact le_trans (extMatch_len u w he) hu
    | none =>
      rw [orClose_none u he] at h
      exact le_trans (matchClose_len u v h) hu

theorem matchPat_rem_len (imgid : List Char) (c : Char) (rest v : List Char)
    (h : matchPat imgid (c :: rest) = some v) : v.length ≤ rest.length := by
  rw [matchPat_cons] at h
  split at h
  next => exact matchTail_len imgid rest v h
  next => cases h

theorem subImgF_step (n : Nat) (imgid uri : List Char) (c : Char) (rest : List Char) :
    subImgF (n + 1) imgid uri (c :: rest) =
      match matchPat imgid (c :: rest) with
      | some v => '(' :: (uri ++ ')' :: subImgF n imgid uri v)
      | none => c :: subImgF n imgid uri rest := rfl

theorem subImgF_fuel (imgid uri : List Char) : ∀ (n : Nat) (s : List Char),
    s.length ≤ n → subImgF n imgid uri s = subImg imgid uri s := by
  intro n
  induction n using Nat.strong_induction_on with
  | _ n ih =>
    intro s hlen
    cases s with
    | nil =>
      cases n with
      | zero => rfl
      | succ k => rfl
    | cons c rest =>
      cases n with
      | zero => simp at hlen
      | succ n2 =>
        have hr : rest.length ≤ n2 := by simpa using hlen
        show subImgF (n2 + 1) imgid uri (c :: rest)
          = subImgF (rest.length + 1) imgid uri (c :: rest)
        rw [subImgF_step, subImgF_step]
        cases hmn : matchPat imgid (c :: rest) with
        | none =>
          have e1 := ih n2 (Nat.lt_succ_self n2) rest hr
          have e2 := ih rest.length (Nat.lt_succ_of_le hr) rest le_rfl
          show c :: subImgF n2 imgid uri rest = c :: subImgF rest.length imgid uri rest
          rw [e1, e2]
        | some v =>
          have hv := matchPat_rem_len imgid c rest v hmn
          have e1 := ih n2 (Nat.lt_succ_self n2) v (le_trans hv hr)
          have e2 := ih rest.length (Nat.lt_succ_of_le hr) v hv
          show '(' :: (uri ++ ')' :: subImgF n2 imgid uri v)
            = '(' :: (uri ++ ')' :: subImgF rest.length imgid uri v)
          rw [e1, e2]

theorem subImg_match (imgid uri : List Char) (c : Char) (rest v : List Char)
    (h : matchPat imgid (c :: rest) = some v) :
    subImg imgid uri (c :: rest) = '(' :: (uri ++ ')' :: subImg imgid uri v) := by
  show subImgF (rest.length + 1) imgid uri (c :: rest) = _
  rw [subImgF_step, h]
  show '(' :: (uri ++ ')' :: subImgF rest.length imgid uri v) = _
  rw [subImgF_fuel imgid uri rest.length v (matchPat_rem_len imgid c rest v h)]

theorem subImg_nomatch (imgid uri : List Char) (c : Char) (rest : List Char)
    (h : matchPat imgid (c :: rest) = none) :
    subImg imgid uri (c :: rest) = c :: subImg imgid uri rest := by
  show subImgF (rest.length + 1) imgid uri (c :: rest) = _
  rw [subImgF_step, h]
  show c :: subImgF rest.length imgid uri rest = _
  rw [subImgF_fuel imgid uri rest.length rest le_rfl]

theorem matchPat_not_paren (imgid : List Char) (c : Char) (t : List Char)
    (h : ¬ c = '(') : matchPat imgid (c :: t) = none := by
  rw [matchPat_cons, if_neg h]

theorem subImg_app (imgid uri pre s : List Char) (hpre : '(' ∉ pre) :
    subImg imgid uri (pre ++ s) = pre ++ subImg imgid uri s := by
  induction pre with
  | nil => simp
  | cons c p ih =>
    have hc : ¬ c = '(' := fun hx => hpre (by simp [hx])
    have hp : '(' ∉ p := fun hx => hpre (by simp [hx])
    rw [List.cons_append,
      subImg_nomatch imgid uri c (p ++ s) (matchPat_not_paren imgid c (p ++ s) hc),
      ih hp, List.cons_append]

theorem subImg_noParen (imgid uri s : List Char) (h : '(' ∉ s) :
    subImg imgid uri s = s := by
  induction s with
  | nil => rfl
  | cons c rest ih =>
    have hc : ¬ c = '(' := fun hx => h (by simp [hx])
    rw [subImg_nomatch imgid uri c rest (matchPat_not_paren imgid c rest hc),
      ih (fun hx => h (by simp [hx]))]

theorem matchPat_build_plain (imgid post : List Char) :
    matchPat imgid ('(' :: (imgid ++ (')' :: post))) = some post := by
  rw [matchPat_cons, if_pos rfl,
    matchTail_some_lit imgid _ _ (dropLit_append imgid (')' :: post)),
    orClose_none _ (extMatch_notdot ')' post (by decide)),
    matchClose_cons]

theorem takeLower_append (w t : List Char) (hw : ∀ c ∈ w, isLowerC c = true) :
    takeLower w.length (w ++ t) = some (w, t) := by
  induction w with
  | nil => rfl
  | cons c w2 ih =>
    show (if isLowerC c then
        (takeLower w2.length (w2 ++ t)).map (fun p => (c :: p.1, p.2)) else none)
      = some (c :: w2, t)
    rw [if_pos (hw c (by simp)), ih (fun d hd => hw d (by simp [hd]))]
    rfl

theorem takeLower_stop (w : List Char) (c : Char) (t : List Char)
    (hw : ∀ d ∈ w, isLowerC d = true) (hc : isLowerC c = false) :
    takeLower (w.length + 1) (w ++ c :: t) = none := by
  induction w with
  | nil =>
    show (if isLowerC c then (takeLower 0 t).map (fun p => (c :: p.1, p.2)) else none)
      = none
    rw [hc]
    simp
  | cons d w2 ih =>
    show (if isLowerC d then
        (takeLower (w2.length + 1) (w2 ++ c :: t)).map (fun p => (d :: p.1, p.2))
        else none)
      = none
    rw [if_pos (hw d (by simp)), ih (fun e he => hw e (by simp [he]))]
    rfl

theorem matchPat_build_ext (imgid ext post : List Char)
    (hlen : ext.length = 3 ∨ ext.length = 4)
    (hlow : ∀ c ∈ ext, isLowerC c = true) :
    matchPat imgid ('(' :: (imgid ++ ('.' :: (ext ++ (')' :: post))))) = some post := by
  rw [matchPat_cons, if_pos rfl,
    matchTail_some_lit imgid _ _ (dropLit_append imgid ('.' :: (ext ++ (')' :: post))))]
  have hext : extMatch ('.' :: (ext ++ (')' :: post))) = some post := by
    rw [extMatch_dot]
    rcases hlen with h3 | h4
    · have hno4 : takeLower 4 (ext ++ (')' :: post)) = none := by
        have := takeLower_stop ext ')' post hlow (by decide)
        rw [h3] at this
        exact this
      have hhit : takeLower 3 (ext ++ (')' :: post)) = some (ext, ')' :: post) := by
        have := takeLower_append ext (')' :: post) hlow
        rw [h3] at this
        exact this
      rw [extAfterDot_no4 _ hno4, ext3_hit _ (ext, ')' :: post) hhit, matchClose_cons]
    · have hhit : takeLower 4 (ext ++ (')' :: post)) = some (ext, ')' :: post) := by
        have := takeLower_append ext (')' :: post) hlow
        rw [h4] at this
        exact this
      exact extAfterDot_hit _ (ext, ')' :: post) post hhit (matchClose_cons post)
  rw [orClose_some _ post hext]

theorem relinkImage_some (content imgid : List Char) (d : Char) (ds : List Char) :
    relinkImage content ⟨imgid, some (d :: ds)⟩
      = subImg imgid (imageUri (d :: ds)) content := rfl

theorem imageUri_data (p : List Char) : imageUri (dataMark ++ p) = dataMark ++ p := by
  unfold imageUri
  rw [dropLit_append]

theorem imageUri_other (d : List Char) (h : ∀ p, d ≠ dataMark ++ p) :
    imageUri d = jpegMark ++ d := by
  unfold imageUri
  cases hx : dropLit dataMark d with
  | none => rfl
  | some u => exact absurd (dropLit_some dataMark d u hx) (h u)

/-- C3: for an image with non-empty data the relinker replaces a
placeholder "(<id>)" or "(<id>.<3-4 lowercase letters>)" by
"(<inline data reference>)"; the id is matched literally (regex
metacharacters in it do not act as patterns, shown on the id "a.b");
an image whose data is empty or absent leaves the text unchanged. -/
theorem relink_replaces_placeholders :
    (∀ (imgid : List Char) (d : Char) (ds pre post : List Char),
        '(' ∉ pre → '(' ∉ post →
        relinkImage (pre ++ '(' :: (imgid ++ (')' :: post))) ⟨imgid, some (d :: ds)⟩
          = pre ++ '(' :: (imageUri (d :: ds) ++ (')' :: post))) ∧
    (∀ (imgid : List Char) (d : Char) (ds ext pre post : List Char),
        '(' ∉ pre → '(' ∉ post →
        (ext.length = 3 ∨ ext.length = 4) → (∀ c ∈ ext, isLowerC c = true) →
        relinkImage (pre ++ '(' :: (imgid ++ ('.' :: (ext ++ (')' :: post)))))
            ⟨imgid, some (d :: ds)⟩
          = pre ++ '(' :: (imageUri (d :: ds) ++ (')' :: post))) ∧
    (subImg ['a', '.', 'b'] ['U'] ['(', 'a', 'x', 'b', ')'] = ['(', 'a', 'x', 'b', ')'] ∧
      subImg ['a', '.', 'b'] ['U'] ['(', 'a', '.', 'b', ')'] = ['(', 'U', ')']) ∧
    (∀ (content imgid : List Char),
        relinkImage content ⟨imgid, some []⟩ = content ∧
        relinkImage content ⟨imgid, none⟩ = content) := by
  refine ⟨?_, ?_, ⟨by decide, by decide⟩, fun content imgid => ⟨rfl, rfl⟩⟩
  · intro imgid d ds pre post hpre hpost
    rw [relinkImage_some, subImg_app _ _ pre _ hpre,
      subImg_match _ _ '(' _ post (matchPat_build_plain imgid post),
      subImg_noParen _ _ post hpost]
  · intro imgid d ds ext pre post hpre hpost hlen hlow
    rw [relinkImage_some, subImg_app _ _ pre _ hpre,
      subImg_match _ _ '(' _ post (matchPat_build_ext imgid ext post hlen hlow),
      subImg_noParen _ _ post hpost]

theorem relink_replaces_placeholders_witness :
    relinkImage (['x'] ++ '(' :: (['i'] ++ (')' :: ['y']))) ⟨['i'], some ('Q' :: [])⟩
      = ['x'] ++ '(' :: (imageUri ('Q' :: []) ++ (')' :: ['y'])) :=
  relink_replaces_placeholders.1 ['i'] 'Q' [] ['x'] ['y'] (by decide) (by decide)

/-- C10: image data that does not already begin with "data:" is tagged
with the specific media type image/jpeg, producing
"data:image/jpeg;base64,<data>"; data already carrying a "data:"
prefix is inlined verbatim. -/
theorem jpeg_default_tagging :
    (∀ d : List Char, (∀ p, d ≠ dataMark ++ p) → imageUri d = jpegMark ++ d) ∧
    (∀ p : List Char, imageUri (dataMark ++ p) = dataMark ++ p) ∧
    relinkImage ['(', 'i', ')'] ⟨['i'], some ['X']⟩ = '(' :: (jpegMark ++ ['X', ')']) :=
  ⟨imageUri_other, imageUri_data, by decide⟩

theorem jpeg_default_tagging_witness : imageUri ['X'] = jpegMark ++ ['X'] := by
  apply jpeg_default_tagging.1 ['X']
  intro p h
  have hl := congrArg List.length h
  rw [show dataMark = ['d', 'a', 't', 'a', ':'] from rfl] at hl
  simp only [List.length_cons, List.length_append, List.length_nil] at hl
  omega

theorem foldl_append_flat (g : Page → List Char) :
    ∀ (pages : List Page) (acc : List Char),
      pages.foldl (fun a p => a ++ g p) acc = acc ++ (pages.map g).flatten := by
  intro pages
  induction pages with
  | nil => intro acc; simp
  | cons p ps ih =>
    intro acc
    simp only [List.foldl_cons, List.map_cons, List.flatten_cons, ih, List.append_assoc]

/-- C9: the persisted draft is exactly the concatenation, in page
order, of each page's text after image relinking and noise stripping,
with no separator between consecutive pages, so the last line of one
page and the first line of the next merge into one draft line. -/
theorem draft_is_page_concat :
    (∀ pages : List Page, ocrToMarkdown pages = (pages.map processPage).flatten) ∧
    ocrToMarkdown [⟨['a'], []⟩, ⟨['b'], []⟩] = ['a', 'b'] ∧
    splitLines (ocrToMarkdown [⟨['a'], []⟩, ⟨['b'], []⟩]) = [['a', 'b']] := by
  refine ⟨fun pages => ?_, by decide, by decide⟩
  unfold ocrToMarkdown
  rw [foldl_append_flat processPage pages []]
  simp

/-! ## Cover extractor (extract_first_image_as_cover, lines 60-91)

The pattern is `!\[.*?\]\((data:image\/([a-zA-Z]+);base64,([^\)]+))\)`.
`re.search` finds the leftmost position with a match; the lazy `.*?`
takes the shortest alt that lets the rest of the pattern continue, `.`
does not cross a newline, the format group is one or more ASCII
letters and the payload one or more characters other than `)`.  On a
match the code saves the decoded payload under
`outputs/cover_<timestamp>.<format>` and removes the first occurrence
of the full matched substring from the text; on a decode or write
failure, or with no match, it returns `(None, text)`. -/

def litBrkt : List Char :=
  [']', '(', 'd', 'a', 't', 'a', ':', 'i', 'm', 'a', 'g', 'e', '/']

def litB64 : List Char := [';', 'b', 'a', 's', 'e', '6', '4', ',']

def notParen (c : Char) : Bool := !(c == ')')

def payloadSplit (u3 : List Char) : Option (List Char × List Char) :=
  match u3.takeWhile notParen with
  | [] => none
  | p :: ps =>
    match u3.dropWhile notParen with
    | _ :: rest => some (p :: ps, rest)
    | [] => none

def b64Stage (fmt w : List Char) : Option (List Char × List Char × List Char) :=
  match dropLit litB64 w with
  | none => none
  | some u3 =>
    match payloadSplit u3 with
    | none => none
    | some pr => some (fmt, pr.1, pr.2)

def fmtStage (u2 : List Char) : Option (List Char × List Char × List Char) :=
  match u2.takeWhile isAlphaC with
  | [] => none
  | f :: fs => b64Stage (f :: fs) (u2.dropWhile isAlphaC)

def contAt (u : List Char) : Option (List Char × List Char × List Char) :=
  match dropLit litBrkt u with
  | none => none
  | some u2 => fmtStage u2

def findCont : Nat → List Char → Option (List Char × List Char × List Char × List Char)
  | 0, _ => none
  | n + 1, u =>
    match contAt u with
    | some q => some ([], q.1, q.2.1, q.2.2)
    | none =>
      match u with
      | [] => none
      | c :: u2 =>
        if c = '\n' then none
        else (findCont n u2).map (fun q => (c :: q.1, q.2))

def matchCoverAt (s : List Char) : Option (List Char × List Char × List Char × List Char) :=
  match s with
  | a :: b :: u =>
    if a = '!' then if b = '[' then findCont (u.length + 1) u else none else none
  | _ => none

def fullOf (alt fmt payload : List Char) : List Char :=
  '!' :: '[' :: (alt ++ (litBrkt ++ (fmt ++ (litB64 ++ (payload ++ [')'])))))

def searchCover : List Char → Option (List Char × List Char × List Char)
  | [] => none
  | c :: t =>
    match matchCoverAt (c :: t) with
    | some q => some (fullOf q.1 q.2.1 q.2.2.1, q.2.1, q.2.2.1)
    | none => searchCover t

def removeOnce (pat : List Char) : List Char → List Char
  | [] =>
    match dropLit pat [] with
    | some rest => rest
    | none => []
  | c :: t =>
    match dropLit pat (c :: t) with
    | some rest => rest
    | none => c :: removeOnce pat t

def coverPath (ts fmt : List Char) : List Char :=
  ['o', 'u', 't', 'p', 'u', 't', 's', '/', 'c', 'o', 'v', 'e', 'r', '_']
    ++ (ts ++ '.' :: fmt)

def extract_first_image_as_cover (mdContent ts : List Char) (ioOk : Bool) :
    Option (List Char) × List Char :=
  match searchCover mdContent with
  | some q =>
    if ioOk then (some (coverPath ts q.2.1), removeOnce q.1 mdContent)
    else (none, mdContent)
  | none => (none, mdContent)

/-- Modelled from the claim's words: a tight inline base64 image
reference starts here when the alt text runs to the first `]` without
a newline and is followed by the literal reference syntax. -/
def notRB (c : Char) : Bool := !(c == ']')

def tightRefHead (s : List Char) : Bool :=
  match s with
  | a :: b :: u =>
    if a = '!' then
      if b = '[' then
        if (u.takeWhile notRB).contains '\n' then false
        else
          match contAt (u.dropWhile notRB) with
          | some _ => true
          | none => false
      else false
    else false
  | _ => false

def countTight : List Char → Nat
  | [] => 0
  | c :: t => (if tightRefHead (c :: t) then 1 else 0) + countTight t

theorem payloadSplit_build (payload post : List Char) (hp : payload ≠ [])
    (hpp : ')' ∉ payload) :
    payloadSplit (payload ++ ')' :: post) = some (payload, post) := by
  have hall : ∀ c ∈ payload, notParen c = true := by
    intro c hc
    simp only [notParen, Bool.not_eq_true', beq_eq_false_iff_ne, ne_eq]
    intro h
    exact hpp (h ▸ hc)
  have hH : HeadNot notParen (')' :: post) := (by decide : notParen ')' = false)
  unfold payloadSplit
  rw [takeWhile_split notParen payload (')' :: post) hall hH,
    dropWhile_split notParen payload (')' :: post) hall hH]
  cases payload with
  | nil => exact absurd rfl hp
  | cons p ps => rfl

theorem b64Stage_build (fmt payload post : List Char) (hp : payload ≠ [])
    (hpp : ')' ∉ payload) :
    b64Stage fmt (litB64 ++ (payload ++ ')' :: post)) = some (fmt, payload, post) := by
  unfold b64Stage
  rw [dropLit_append]
  show (match payloadSplit (payload ++ ')' :: post) with
       | none => none
       | some pr => some (fmt, pr.1, pr.2)) = some (fmt, payload, post)
  rw [payloadSplit_build payload post hp hpp]

theorem fmtStage_build (fmt payload post : List Char) (hf : fmt ≠ [])
    (hfa : ∀ c ∈ fmt, isAlphaC c = true) (hp : payload ≠ []) (hpp : ')' ∉ payload) :
    fmtStage (fmt ++ (litB64 ++ (payload ++ ')' :: post))) = some (fmt, payload, post) := by
  have hH : HeadNot isAlphaC (litB64 ++ (payload ++ ')' :: post)) :=
    (by decide : isAlphaC ';' = false)
  unfold fmtStage
  rw [takeWhile_split isAlphaC fmt _ hfa hH, dropWhile_split isAlphaC fmt _ hfa hH]
  cases fmt with
  | nil => exact absurd rfl hf
  | cons f fs =>
    show b64Stage (f :: fs) (litB64 ++ (payload ++ ')' :: post)) = _
    exact b64Stage_build (f :: fs) payload post hp hpp

theorem contAt_some_lit (u u2 : List Char) (h : dropLit litBrkt u = some u2) :
    contAt u = fmtStage u2 := by
  unfold contAt
  rw [h]

theorem contAt_none_lit (u : List Char) (h : dropLit litBrkt u = none) :
    contAt u = none := by
  unfold contAt
  rw [h]

theorem contAt_build (fmt payload post : List Char) (hf : fmt ≠ [])
    (hfa : ∀ c ∈ fmt, isAlphaC c = true) (hp : payload ≠ []) (hpp : ')' ∉ payload) :
    contAt (litBrkt ++ (fmt ++ (litB64 ++ (payload ++ ')' :: post))))
      = some (fmt, payload, post) := by
  rw [contAt_some_lit _ _ (dropLit_append litBrkt _)]
  exact fmtStage_build fmt payload post hf hfa hp hpp

theorem contAt_head_ne (a : Char) (t : List Char) (h : ¬ a = ']') :
    contAt (a :: t) = none := by
  apply contAt_none_lit
  show (if ']' = a then
      dropLit ['(', 'd', 'a', 't', 'a', ':', 'i', 'm', 'a', 'g', 'e', '/'] t
    else none) = none
  rw [if_neg (fun hx => h hx.symm)]

theorem findCont_step (n : Nat) (u : List Char) :
    findCont (n + 1) u =
      match contAt u with
      | some q => some ([], q.1, q.2.1, q.2.2)
      | none =>
        match u with
        | [] => none
        | c :: u2 =>
          if c = '\n' then none
          else (findCont n u2).map (fun q => (c :: q.1, q.2)) := rfl

theorem findCont_build (fmt payload post : List Char) (hf : fmt ≠ [])
    (hfa : ∀ c ∈ fmt, isAlphaC c = true) (hp : payload ≠ []) (hpp : ')' ∉ payload) :
    ∀ (alt : List Char) (n : Nat), alt.length < n → ']' ∉ alt → '\n' ∉ alt →
      findCont n (alt ++ (litBrkt ++ (fmt ++ (litB64 ++ (payload ++ ')' :: post)))))
        = some (alt, fmt, payload, post) := by
  intro alt
  induction alt with
  | nil =>
    intro n hn _ _
    cases n with
    | zero => exact absurd hn (by omega)
    | succ n2 =>
      rw [findCont_step]
      simp only [List.nil_append]
      rw [contAt_build fmt payload post hf hfa hp hpp]
  | cons a alt2 ih =>
    intro n hn hrb hnl
    cases n with
    | zero => exact absurd hn (by omega)
    | succ n2 =>
      have hlt : alt2.length < n2 := by
        simp only [List.length_cons] at hn
        omega
      have ha : ¬ a = ']' := fun hx => hrb (by simp [hx])
      have ha2 : ¬ a = '\n' := fun hx => hnl (by simp [hx])
      rw [findCont_step, List.cons_append,
        contAt_head_ne a _ ha]
      show (if a = '\n' then none
        else (findCont n2
            (alt2 ++ (litBrkt ++ (fmt ++ (litB64 ++ (payload ++ ')' :: post)))))).map
          (fun q => (a :: q.1, q.2))) = some (a :: alt2, fmt, payload, post)
      rw [if_neg ha2,
        ih n2 hlt (fun hx => hrb (by simp [hx])) (fun hx => hnl (by simp [hx]))]
      rfl

theorem matchCoverAt_build (u : List Char) :
    matchCoverAt ('!' :: '[' :: u) = findCont (u.length + 1) u := by
  show (if '!' = '!' then if '[' = '[' then findCont (u.length + 1) u else none
    else none) = findCont (u.length + 1) u
  rw [if_pos rfl, if_pos rfl]

theorem matchCoverAt_not_bang (c : Char) (t : List Char) (h : ¬ c = '!') :
    matchCoverAt (c :: t) = none := by
  cases t with
  | nil => rfl
  | cons b u =>
    show (if c = '!' then if b = '[' then findCont (u.length + 1) u else none
      else none) = none
    rw [if_neg h]

theorem searchCover_step (c : Char) (t : List Char) :
    searchCover (c :: t) =
      match matchCoverAt (c :: t) with
      | some q => some (fullOf q.1 q.2.1 q.2.2.1, q.2.1, q.2.2.1)
      | none => searchCover t := rfl

theorem searchCover_hit (c : Char) (t : List Char)
    (q : List Char × List Char × List Char × List Char)
    (h : matchCoverAt (c :: t) = some q) :
    searchCover (c :: t) = some (fullOf q.1 q.2.1 q.2.2.1, q.2.1, q.2.2.1) := by
  rw [searchCover_step, h]

theorem searchCover_miss (c : Char) (t : List Char)
    (h : matchCoverAt (c :: t) = none) :
    searchCover (c :: t) = searchCover t := by
  rw [searchCover_step, h]

theorem searchCover_pre (pre s : List Char) (h : '!' ∉ pre) :
    searchCover (pre ++ s) = searchCover s := by
  induction pre with
  | nil => rw [List.nil_append]
  | cons c p ih =>
    have hc : ¬ c = '!' := fun hx => h (by simp [hx])
    rw [List.cons_append, searchCover_miss c _ (matchCoverAt_not_bang c _ hc),
      ih (fun hx => h (by simp [hx]))]

theorem searchCover_no_bang (s : List Char) (h : '!' ∉ s) : searchCover s = none := by
  induction s with
  | nil => rfl
  | cons c t ih =>
    have hc : ¬ c = '!' := fun hx => h (by simp [hx])
    rw [searchCover_miss c t (matchCoverAt_not_bang c t hc),
      ih (fun hx => h (by simp [hx]))]

theorem removeOnce_hit (pat : List Char) (c : Char) (t rest : List Char)
    (h : dropLit pat (c :: t) = some rest) : removeOnce pat (c :: t) = rest := by
  show (match dropLit pat (c :: t) with
       | some rest => rest
       | none => c :: removeOnce pat t) = rest
  rw [h]

theorem removeOnce_miss (pat : List Char) (c : Char) (t : List Char)
    (h : dropLit pat (c :: t) = none) :
    removeOnce pat (c :: t) = c :: removeOnce pat t := by
  show (match dropLit pat (c :: t) with
       | some rest => rest
       | none => c :: removeOnce pat t) = c :: removeOnce pat t
  rw [h]

theorem removeOnce_pre (pt pre s : List Char) (h : '!' ∉ pre) :
    removeOnce ('!' :: pt) (pre ++ s) = pre ++ removeOnce ('!' :: pt) s := by
  induction pre with
  | nil => simp
  | cons c p ih =>
    have hc : ¬ '!' = c := fun hx => h (by rw [← hx]; simp)
    have hd : dropLit ('!' :: pt) (c :: (p ++ s)) = none := by
      show (if '!' = c then dropLit pt (p ++ s) else none) = none
      rw [if_neg hc]
    rw [List.cons_append, removeOnce_miss _ _ _ hd, ih (fun hx => h (by simp [hx])),
      List.cons_append]

theorem removeOnce_at (q : Char) (qt s : List Char) :
    removeOnce (q :: qt) ((q :: qt) ++ s) = s := by
  have hd : dropLit (q :: qt) (q :: (qt ++ s)) = some s := by
    have h2 := dropLit_append (q :: qt) s
    rw [List.cons_append] at h2
    exact h2
  rw [List.cons_append, removeOnce_hit (q :: qt) q (qt ++ s) s hd]

theorem extract_hit (md ts full fmt pay : List Char)
    (h : searchCover md = some (full, fmt, pay)) :
    extract_first_image_as_cover md ts true
      = (some (coverPath ts fmt), removeOnce full md) := by
  unfold extract_first_image_as_cover
  rw [h]
  rfl

theorem extract_none_case (md ts : List Char) (io : Bool)
    (h : searchCover md = none) :
    extract_first_image_as_cover md ts io = (none, md) := by
  unfold extract_first_image_as_cover
  rw [h]

/-- C7: when decoding or writing the cover fails, the extractor
returns (none, original text) with the text unmodified, for every
input text. -/
theorem cover_failure_path (md ts : List Char) :
    extract_first_image_as_cover md ts false = (none, md) := by
  unfold extract_first_image_as_cover
  cases h : searchCover md with
  | none => rfl
  | some q => rfl

/-- The text below contains exactly one tight inline base64 image
reference, namely "![x](data:image/p;base64,q)", yet the code removes
the whole text: the lazy alt of the leftmost match starts at the
earlier "![foo](...)" link and spans across it, so the match is the
entire string rather than the one reference. -/
theorem cover_lazy_overreach_cx :
    countTight ("![foo](http://a.png) and ![x](data:image/p;base64,q)".toList) = 1 ∧
    extract_first_image_as_cover
        ("![foo](http://a.png) and ![x](data:image/p;base64,q)".toList) ['T'] true
      = (some (coverPath ['T'] ['p']), []) ∧
    removeOnce ("![x](data:image/p;base64,q)".toList)
        ("![foo](http://a.png) and ![x](data:image/p;base64,q)".toList)
      = "![foo](http://a.png) and ".toList := by
  refine ⟨by decide, by decide, by decide⟩

/-- C6 (corrected): when the single reference's alt text contains no
"]" and no newline (so the lazy alt cannot overreach) and nothing
before the reference contains "!", the extractor returns the cover
asset and the text with exactly that reference removed; a text with
no "!" at all has no reference and is returned unchanged with none.
Without the alt restriction the match can span from an earlier "![",
removing more than the reference. -/
theorem cover_extractor_corrected :
    (∀ (pre alt fmt payload post ts : List Char),
        '!' ∉ pre → ']' ∉ alt → '\n' ∉ alt →
        fmt ≠ [] → (∀ c ∈ fmt, isAlphaC c = true) →
        payload ≠ [] → ')' ∉ payload →
        extract_first_image_as_cover (pre ++ fullOf alt fmt payload ++ post) ts true
          = (some (coverPath ts fmt), pre ++ post)) ∧
    (∀ (s ts : List Char) (io : Bool), '!' ∉ s →
        extract_first_image_as_cover s ts io = (none, s)) := by
  constructor
  · intro pre alt fmt payload post ts hpre hrb hnl hf hfa hp hpp
    have he : fullOf alt fmt payload ++ post
        = '!' :: '[' :: (alt ++ (litBrkt ++ (fmt ++ (litB64 ++ (payload ++ ')' :: post))))) := by
      unfold fullOf
      simp [List.append_assoc]
    have hmc : matchCoverAt (fullOf alt fmt payload ++ post)
        = some (alt, fmt, payload, post) := by
      rw [he, matchCoverAt_build]
      apply findCont_build fmt payload post hf hfa hp hpp alt
      · simp only [List.length_append, List.length_cons]
        omega
      · exact hrb
      · exact hnl
    have hsc : searchCover (pre ++ (fullOf alt fmt payload ++ post))
        = some (fullOf alt fmt payload, fmt, payload) := by
      rw [searchCover_pre pre _ hpre, he,
        searchCover_hit '!' _ (alt, fmt, payload, post) (by rw [← he]; exact hmc)]
    have hro : removeOnce (fullOf alt fmt payload)
        (pre ++ (fullOf alt fmt payload ++ post)) = pre ++ post := by
      have h1 : fullOf alt fmt payload
          = '!' :: ('[' :: (alt ++ (litBrkt ++ (fmt ++ (litB64 ++ (payload ++ [')'])))))) := rfl
      rw [h1, removeOnce_pre _ pre _ hpre, removeOnce_at]
    rw [List.append_assoc, extract_hit _ ts (fullOf alt fmt payload) fmt payload hsc, hro]
  · intro s ts io hs
    exact extract_none_case s ts io (searchCover_no_bang s hs)

theorem cover_extractor_corrected_witness :
    extract_first_image_as_cover (['z'] ++ fullOf ['a'] ['p'] ['q'] ++ ['w']) ['T'] true
      = (some (coverPath ['T'] ['p']), ['z'] ++ ['w']) :=
  cover_extractor_corrected.1 ['z'] ['a'] ['p'] ['q'] ['w'] ['T'] (by decide)
    (by decide) (by decide) (by decide) (by decide) (by decide) (by decide)

/-! ## Output namer (process_pdf_gradio, lines 192-200)

The loop tries counter 0, 1, 2, ...; counter 0 gives the bare
"<base><ext>" and counter k > 0 gives "<base>_k<ext>"; it stops at the
first name whose path does not yet exist under outputs/.  The store is
modelled by the list of names already present; the source loop is
unbounded, the model carries fuel one larger than the store, which is
enough for every store in which the loop terminates. -/

def suffixFor (counter : Nat) : List Char :=
  if counter > 0 then '_' :: Nat.toDigits 10 counter else []

def nameFor (base ext : List Char) (counter : Nat) : List Char :=
  base ++ (suffixFor counter ++ ext)

def findNameF : Nat → List (List Char) → List Char → List Char → Nat → Option (List Char)
  | 0, _, _, _, _ => none
  | n + 1, store, base, ext, counter =>
    if nameFor base ext counter ∈ store then findNameF n store base ext (counter + 1)
    else some (nameFor base ext counter)

def findName (store : List (List Char)) (base ext : List Char) : Option (List Char) :=
  findNameF (store.length + 1) store base ext 0

theorem findNameF_first (store : List (List Char)) (base ext : List Char) :
    ∀ (n fuel c : Nat), n < fuel →
      (∀ m, m < n → nameFor base ext (c + m) ∈ store) →
      nameFor base ext (c + n) ∉ store →
      findNameF fuel store base ext c = some (nameFor base ext (c + n)) := by
  intro n
  induction n with
  | zero =>
    intro fuel c hf hall hfree
    cases fuel with
    | zero => omega
    | succ f =>
      show (if nameFor base ext c ∈ store then findNameF f store base ext (c + 1)
        else some (nameFor base ext c)) = some (nameFor base ext (c + 0))
      rw [if_neg (by simpa using hfree)]
      simp
  | succ n ih =>
    intro fuel c hf hall hfree
    cases fuel with
    | zero => omega
    | succ f =>
      show (if nameFor base ext c ∈ store then findNameF f store base ext (c + 1)
        else some (nameFor base ext c)) = some (nameFor base ext (c + (n + 1)))
      rw [if_pos (by simpa using hall 0 (by omega))]
      have hstep := ih f (c + 1) (by omega)
        (fun m hm => by
          have h2 := hall (m + 1) (by omega)
          have he : c + (m + 1) = c + 1 + m := by omega
          rw [he] at h2
          exact h2)
        (by
          have he : c + (n + 1) = c + 1 + n := by omega
          rw [he] at hfree
          exact hfree)
      rw [hstep]
      have he : c + 1 + n = c + (n + 1) := by omega
      rw [he]

/-- C2: the namer returns the first name in the sequence
"<base><ext>", "<base>_1<ext>", "<base>_2<ext>", ... that is not in
the store; for the store holding exactly report.epub and report_1.epub
with base "report" and extension ".epub" it returns "report_2.epub". -/
theorem output_namer_first_free :
    (∀ (store : List (List Char)) (base ext : List Char) (n : Nat),
        n ≤ store.length →
        (∀ m, m < n → nameFor base ext m ∈ store) →
        nameFor base ext n ∉ store →
        findName store base ext = some (nameFor base ext n)) ∧
    findName ["report.epub".toList, "report_1.epub".toList]
        "report".toList ".epub".toList
      = some ("report_2.epub".toList) := by
  constructor
  · intro store base ext n hle hall hfree
    unfold findName
    have h0 := findNameF_first store base ext n (store.length + 1) 0 (by omega)
      (fun m hm => by simpa using hall m hm)
      (by simpa using hfree)
    simpa using h0
  · decide

theorem output_namer_first_free_witness :
    findName [['a']] ['a'] [] = some (nameFor ['a'] [] 1) :=
  output_namer_first_free.1 [['a']] ['a'] [] 1 (by decide) (by decide) (by decide)

/-! ## Orchestrator (process_pdf_gradio, lines 175-259)

The whole body after the upload check sits in one try/except that
returns (None, "Error: ...") on any exception; the EPUB and MOBI
branches call the pandoc backend first and delete the intermediate
draft and the auto-extracted cover only after it returns, so an
exception from the backend skips both deletions.  `files` collects the
files under outputs/ left behind by the run: the draft (at the final
output path for Markdown, at a timestamped temp path otherwise), the
auto-extracted cover asset, and the rendered output.  An OCR failure
is raised by the API call before the draft file is opened, so it
leaves nothing behind.  The fuel-exhausted namer case cannot arise in
a terminating source run and is mapped to the failure output. -/

inductive ExportFormat where
  | markdown
  | epub
  | mobi

def extOf : ExportFormat → List Char
  | ExportFormat.markdown => ['.', 'm', 'd']
  | ExportFormat.epub => ['.', 'e', 'p', 'u', 'b']
  | ExportFormat.mobi => ['.', 'm', 'o', 'b', 'i']

structure OrchIn where
  pdfPresent : Bool
  baseName : List Char
  fmt : ExportFormat
  manualCover : Option (List Char)
  autoCover : Bool
  store : List (List Char)
  mdContent : List Char
  ocrFails : Bool
  backendRaises : Bool
  ioOk : Bool
  ts : List Char

structure OrchOut where
  result : Option (List Char)
  ok : Bool
  files : List (List Char)
  extractorCalled : Bool
  draftRewritten : Bool
  coverUsed : Option (List Char)

structure CoverRes where
  cover : Option (List Char)
  coverTemp : Option (List Char)
  draft : List Char
  called : Bool
  rewritten : Bool

def outputsDir : List Char := ['o', 'u', 't', 'p', 'u', 't', 's', '/']

def outPathOf (name : List Char) : List Char := outputsDir ++ name

def tempPath (ts : List Char) : List Char :=
  outputsDir ++ (['t', 'e', 'm', 'p', '_'] ++ (ts ++ ['.', 'm', 'd']))

def optList : Option (List Char) → List (List Char)
  | some p => [p]
  | none => []

def coverStage (manualCover : Option (List Char)) (autoCover : Bool)
    (mdContent ts : List Char) (ioOk : Bool) : CoverRes :=
  match manualCover with
  | some c => ⟨some c, none, mdContent, false, false⟩
  | none =>
    if autoCover then
      match extract_first_image_as_cover mdContent ts ioOk with
      | (some p, newContent) => ⟨some p, some p, newContent, true, true⟩
      | (none, _) => ⟨none, none, mdContent, true, false⟩
    else ⟨none, none, mdContent, false, false⟩

def noOut : OrchOut := ⟨none, false, [], false, false, none⟩

def mdOut (name : List Char) (cv : CoverRes) : OrchOut :=
  ⟨some (outPathOf name), true, outPathOf name :: optList cv.coverTemp,
    cv.called, cv.rewritten, cv.cover⟩

def rOut (i : OrchIn) (name : List Char) (cv : CoverRes) : OrchOut :=
  if i.backendRaises then
    ⟨none, false, tempPath i.ts :: optList cv.coverTemp,
      cv.called, cv.rewritten, cv.cover⟩
  else
    ⟨some (outPathOf name), true, [outPathOf name],
      cv.called, cv.rewritten, cv.cover⟩

def coverAndRender (i : OrchIn) (name : List Char) (cv : CoverRes) : OrchOut :=
  match i.fmt with
  | ExportFormat.markdown => mdOut name cv
  | ExportFormat.epub => rOut i name cv
  | ExportFormat.mobi => rOut i name cv

def process_pdf_gradio (i : OrchIn) : OrchOut :=
  if i.pdfPresent then
    match findName i.store i.baseName (extOf i.fmt) with
    | none => noOut
    | some name =>
      if i.ocrFails then noOut
      else coverAndRender i name
        (coverStage i.manualCover i.autoCover i.mdContent i.ts i.ioOk)
  else noOut

theorem process_run (i : OrchIn) (name : List Char) (hpdf : i.pdfPresent = true)
    (hname : findName i.store i.baseName (extOf i.fmt) = some name)
    (hocr : i.ocrFails = false) :
    process_pdf_gradio i
      = coverAndRender i name
          (coverStage i.manualCover i.autoCover i.mdContent i.ts i.ioOk) := by
  unfold process_pdf_gradio
  rw [hpdf, if_pos rfl, hname]
  show (if i.ocrFails then noOut
    else coverAndRender i name
      (coverStage i.manualCover i.autoCover i.mdContent i.ts i.ioOk)) = _
  rw [hocr, if_neg (by decide)]

theorem coverStage_manual (c : List Char) (ac : Bool) (md ts : List Char) (io : Bool) :
    coverStage (some c) ac md ts io = ⟨some c, none, md, false, false⟩ := rfl

theorem coverStage_auto_called (md ts : List Char) (io : Bool) :
    (coverStage none true md ts io).called = true := by
  unfold coverStage
  show (if true then
      (match extract_first_image_as_cover md ts io with
       | (some p, newContent) => (⟨some p, some p, newContent, true, true⟩ : CoverRes)
       | (none, _) => ⟨none, none, md, true, false⟩)
    else ⟨none, none, md, false, false⟩).called = true
  rw [if_pos rfl]
  cases hx : extract_first_image_as_cover md ts io with
  | mk o nc =>
    cases o with
    | some p => rfl
    | none => rfl

theorem rOut_fail (i : OrchIn) (name : List Char) (cv : CoverRes)
    (hb : i.backendRaises = true) :
    rOut i name cv = ⟨none, false, tempPath i.ts :: optList cv.coverTemp,
      cv.called, cv.rewritten, cv.cover⟩ := by
  unfold rOut
  rw [hb, if_pos rfl]

theorem rOut_success (i : OrchIn) (name : List Char) (cv : CoverRes)
    (hb : i.backendRaises = false) :
    rOut i name cv = ⟨some (outPathOf name), true, [outPathOf name],
      cv.called, cv.rewritten, cv.cover⟩ := by
  unfold rOut
  rw [hb, if_neg (by decide)]

theorem coverAndRender_eb (i : OrchIn) (name : List Char) (cv : CoverRes)
    (hf : i.fmt = ExportFormat.epub ∨ i.fmt = ExportFormat.mobi) :
    coverAndRender i name cv = rOut i name cv := by
  unfold coverAndRender
  rcases hf with h | h
  · rw [h]
  · rw [h]

/-- With an EPUB target and the backend raising, the draft temp file
(and, in the second run, the auto-extracted cover asset too) is left
behind and the run reports failure: the FAILED path performs no
cleanup. -/
theorem no_cleanup_on_failure_cx :
    (process_pdf_gradio ⟨true, ['r'], ExportFormat.epub, none, false,
        [], ['m'], false, true, true, ['U']⟩).files = [tempPath ['U']] ∧
    (process_pdf_gradio ⟨true, ['r'], ExportFormat.epub, none, false,
        [], ['m'], false, true, true, ['U']⟩).result = none ∧
    (process_pdf_gradio ⟨true, ['r'], ExportFormat.epub, none, true,
        [], "![a](data:image/p;base64,q)".toList, false, true, true, ['T']⟩).files
      = [tempPath ['T'], coverPath ['T'] ['p']] := by
  refine ⟨by decide, by decide, by decide⟩

/-- C1 (corrected): on the success path of an EPUB or MOBI conversion
the draft and any extracted cover are deleted, leaving only the
rendered output; but when the conversion backend raises, the handler
returns the failure with NO cleanup: the intermediate draft file and
any auto-extracted cover asset remain on disk. -/
theorem cleanup_only_on_success :
    (∀ (i : OrchIn) (name : List Char), i.pdfPresent = true → i.ocrFails = false →
        i.backendRaises = false →
        (i.fmt = ExportFormat.epub ∨ i.fmt = ExportFormat.mobi) →
        findName i.store i.baseName (extOf i.fmt) = some name →
        (process_pdf_gradio i).files = [outPathOf name]) ∧
    (∀ (i : OrchIn) (name : List Char), i.pdfPresent = true → i.ocrFails = false →
        i.backendRaises = true →
        (i.fmt = ExportFormat.epub ∨ i.fmt = ExportFormat.mobi) →
        findName i.store i.baseName (extOf i.fmt) = some name →
        (process_pdf_gradio i).result = none ∧
        (process_pdf_gradio i).files
          = tempPath i.ts :: optList
              (coverStage i.manualCover i.autoCover i.mdContent i.ts i.ioOk).coverTemp) := by
  constructor
  · intro i name hpdf hocr hb hf hname
    rw [process_run i name hpdf hname hocr, coverAndRender_eb i name _ hf,
      rOut_success i name _ hb]
  · intro i name hpdf hocr hb hf hname
    rw [process_run i name hpdf hname hocr, coverAndRender_eb i name _ hf,
      rOut_fail i name _ hb]
    exact ⟨rfl, rfl⟩

theorem cleanup_only_on_success_witness :
    (process_pdf_gradio ⟨true, ['r'], ExportFormat.epub, none, false,
        [], ['m'], false, false, true, ['T']⟩).files
      = [outPathOf ['r', '.', 'e', 'p', 'u', 'b']] :=
  cleanup_only_on_success.1
    ⟨true, ['r'], ExportFormat.epub, none, false, [], ['m'], false, false, true, ['T']⟩
    ['r', '.', 'e', 'p', 'u', 'b'] rfl rfl rfl (Or.inl rfl) (by decide)

/-- C8: when a manual cover is supplied it is used directly: the
extractor is not invoked, the draft is not rewritten, and the manual
cover is the one used, whatever the auto-cover flag; auto-extraction
runs exactly when no manual cover is supplied and auto-cover is on. -/
theorem manual_cover_precedence :
    (∀ (i : OrchIn) (c name : List Char), i.pdfPresent = true → i.ocrFails = false →
        i.manualCover = some c →
        findName i.store i.baseName (extOf i.fmt) = some name →
        (process_pdf_gradio i).extractorCalled = false ∧
        (process_pdf_gradio i).draftRewritten = false ∧
        (process_pdf_gradio i).coverUsed = some c) ∧
    (∀ (i : OrchIn) (name : List Char), i.pdfPresent = true → i.ocrFails = false →
        i.manualCover = none → i.autoCover = true →
        findName i.store i.baseName (extOf i.fmt) = some name →
        (process_pdf_gradio i).extractorCalled = true) := by
  constructor
  · intro i c name hpdf hocr hmc hname
    rw [process_run i name hpdf hname hocr, hmc, coverStage_manual]
    cases hf : i.fmt with
    | markdown =>
      unfold coverAndRender
      rw [hf]
      exact ⟨rfl, rfl, rfl⟩
    | epub =>
      rw [coverAndRender_eb i name _ (Or.inl hf)]
      unfold rOut
      cases hb : i.backendRaises with
      | true => rw [if_pos rfl]; exact ⟨rfl, rfl, rfl⟩
      | false => rw [if_neg (by decide)]; exact ⟨rfl, rfl, rfl⟩
    | mobi =>
      rw [coverAndRender_eb i name _ (Or.inr hf)]
      unfold rOut
      cases hb : i.backendRaises with
      | true => rw [if_pos rfl]; exact ⟨rfl, rfl, rfl⟩
      | false => rw [if_neg (by decide)]; exact ⟨rfl, rfl, rfl⟩
  · intro i name hpdf hocr hmc hac hname
    rw [process_run i name hpdf hname hocr, hmc, hac]
    have hcalled := coverStage_auto_called i.mdContent i.ts i.ioOk
    cases hf : i.fmt with
    | markdown =>
      unfold coverAndRender
      rw [hf]
      exact hcalled
    | epub =>
      rw [coverAndRender_eb i name _ (Or.inl hf)]
      unfold rOut
      cases hb : i.backendRaises with
      | true => rw [if_pos rfl]; exact hcalled
      | false => rw [if_neg (by decide)]; exact hcalled
    | mobi =>
      rw [coverAndRender_eb i name _ (Or.inr hf)]
      unfold rOut
      cases hb : i.backendRaises with
      | true => rw [if_pos rfl]; exact hcalled
      | false => rw [if_neg (by decide)]; exact hcalled

theorem manual_cover_precedence_witness :
    (process_pdf_gradio ⟨true, ['r'], ExportFormat.epub, some ['c'], true,
        [], ['m'], false, false, true, ['T']⟩).coverUsed = some ['c'] :=
  (manual_cover_precedence.1
    ⟨true, ['r'], ExportFormat.epub, some ['c'], true, [], ['m'], false, false, true, ['T']⟩
    ['c'] ['r', '.', 'e', 'p', 'u', 'b'] rfl rfl rfl (by decide)).2.2

end PdfEbook








